import Mathlib

/-! Oriented model resampling (`anima::OrientedModelBaseResampleImageFilter`).

A shallow embedding of `animaOrientedModelBaseResampleImageFilter.hxx` and a
verification of its specification.

Conventions of the embedding:

* the image dimension `ImageDimension` is the parameter `N`;
* real numbers (`double`) are exact rationals `ℚ`; index components (`long`)
  are integers `ℤ`;
* a `vnl_matrix <double>` of size `N x N` is a `Matrix (Fin N) (Fin N) ℚ`;
* a pointer that may be null is an `Option`; dereferencing a null pointer or
  reading an index component that does not exist makes the embedded function
  return `none`;
* collaborators that live outside the translated file (the reorientation
  virtual method, the rotation extraction helper, the matrix inverse of the
  numeric library, the default interpolator, buffer allocation) are fields of
  `Externals`.
-/

namespace anima

/-! ## Data model -/

/-- An `itk::Index`: one signed integer per axis. -/
abbrev IndexType (N : ℕ) := Fin N → ℤ

/-- An `itk::Size`: one unsigned integer per axis. -/
abbrev SizeType (N : ℕ) := Fin N → ℕ

/-- A physical point. -/
abbrev PointType (N : ℕ) := Fin N → ℚ

/-- A continuous index. -/
abbrev ContinuousIndexType (N : ℕ) := Fin N → ℚ

/-- A square `vnl_matrix <double>` of side `ImageDimension`. -/
abbrev MatrixType (N : ℕ) := Matrix (Fin N) (Fin N) ℚ

/-- A model value: the variable length vector attached to a voxel. -/
abbrev PixelType := List ℚ

/-- The worker identifier `itk::ThreadIdType`. -/
abbrev ThreadIdType := ℕ

/-- An `itk::ImageRegion`: start index and size. -/
structure ImageRegion (N : ℕ) where
  index : IndexType N
  size : SizeType N

/-- The part of an `itk::VectorImage` the filter reads or writes. -/
structure ImageType (N : ℕ) where
  spacing : Fin N → ℚ
  origin : PointType N
  direction : MatrixType N
  largestPossibleRegion : ImageRegion N
  bufferedRegion : ImageRegion N
  requestedRegion : ImageRegion N
  numberOfComponentsPerPixel : ℕ
  buffer : IndexType N → PixelType

/-- The transform: `TransformPoint`, and the matrix that a
`MatrixOffsetTransformBase` exposes (`none` when the `dynamic_cast` to
`MatrixTransformType` yields a null pointer). -/
structure TransformType (N : ℕ) where
  TransformPoint : PointType N → PointType N
  GetMatrix : Option (MatrixType N)

/-- The interpolator: the image bound by `SetInputImage` and its two queries,
which are evaluated on the bound image. -/
structure InterpolatorType (N : ℕ) where
  inputImage : Option (ImageType N)
  IsInsideBuffer : ImageType N → ContinuousIndexType N → Bool
  EvaluateAtContinuousIndex : ImageType N → ContinuousIndexType N → PixelType

/-- Collaborators defined outside the translated file.

* `ReorientInterpolatedModel value matrix threadId` is the pure virtual
  reorientation method; its result is the value left in `resRotated`.
* `ExtractRotationFromJacobianMatrix jacobian` returns the pair (jacobian
  after the call, rotation matrix), both being passed by reference.
* `vnl_matrix_inverse` is the inverse of the numeric library.
* `newInterpolator` is the object built by `InitializeInterpolator`.
* `Allocate` gives the content of the pixel buffer after `Allocate()`. -/
structure Externals (N : ℕ) where
  ReorientInterpolatedModel : PixelType → MatrixType N → ThreadIdType → PixelType
  ExtractRotationFromJacobianMatrix : MatrixType N → MatrixType N × MatrixType N
  vnl_matrix_inverse : MatrixType N → MatrixType N
  newInterpolator : InterpolatorType N
  Allocate : ImageType N → IndexType N → PixelType

/-- The member variables of the filter, its primary input `GetInput(0)` and
its output `GetOutput()`. -/
structure Filter (N : ℕ) where
  numberOfIndexedInputs : ℕ
  input : ImageType N
  output : ImageType N
  m_Transform : Option (TransformType N)
  m_LinearTransform : Bool
  m_Interpolator : Option (InterpolatorType N)
  m_FiniteStrainReorientation : Bool
  m_OutputSpacing : Fin N → ℚ
  m_OutputOrigin : PointType N
  m_OutputDirection : MatrixType N
  m_OutputLargestPossibleRegion : ImageRegion N
  m_StartIndex : IndexType N
  m_EndIndex : IndexType N
  m_StartIndDef : IndexType N
  m_EndIndDef : IndexType N

/-- What `BeforeThreadedGenerateData` leaves behind: the filter as it is when
the call ends, and the message of the exception it threw, if any. -/
structure SetupResult (N : ℕ) where
  filter : Filter N
  exception : Option String

/-! ## Geometry of the image grid (library conventions) -/

/-- Inverse of a square matrix by the adjugate formula. On a non-singular
matrix this is the inverse. -/
def matrixInverse {N : ℕ} (M : MatrixType N) : MatrixType N :=
  (M.det)⁻¹ • M.adjugate

/-- The matrix `m_IndexToPhysicalPoint` of an image: direction times the
diagonal matrix of the spacing. -/
def IndexToPhysicalPointMatrix {N : ℕ} (img : ImageType N) : MatrixType N :=
  img.direction * Matrix.diagonal img.spacing

/-- The matrix `m_PhysicalPointToIndex` of an image, inverse of
`m_IndexToPhysicalPoint`. -/
def PhysicalPointToIndexMatrix {N : ℕ} (img : ImageType N) : MatrixType N :=
  matrixInverse (IndexToPhysicalPointMatrix img)

/-- The library routine `TransformIndexToPhysicalPoint` of the image class:
`point[r] = origin[r] + sum over c of m_IndexToPhysicalPoint[r][c] * index[c]`. -/
def TransformIndexToPhysicalPoint {N : ℕ} (img : ImageType N) (index : IndexType N) :
    PointType N :=
  fun r => img.origin r + ∑ c, IndexToPhysicalPointMatrix img r c * (index c : ℚ)

/-- The library routine `TransformPhysicalPointToContinuousIndex` of the image
class:
`cindex[r] = sum over c of m_PhysicalPointToIndex[r][c] * (point[c] - origin[c])`. -/
def TransformPhysicalPointToContinuousIndex {N : ℕ} (img : ImageType N) (point : PointType N) :
    ContinuousIndexType N :=
  fun r => ∑ c, PhysicalPointToIndexMatrix img r c * (point c - img.origin c)

/-- The indices of a box, in the order of an image region iterator: the first
axis runs fastest. -/
def boxIndices : (N : ℕ) → IndexType N → SizeType N → List (IndexType N)
  | 0, _, _ => [fun i => i.elim0]
  | N + 1, start, size =>
    (List.range (size (Fin.last N))).flatMap fun k =>
      (boxIndices N (Fin.init start) (Fin.init size)).map fun idx =>
        (Fin.snoc idx (start (Fin.last N) + (k : ℤ)) : Fin (N + 1) → ℤ)

/-- The indices visited by an `ImageRegionIteratorWithIndex` over a region. -/
def ImageRegion.indices {N : ℕ} (r : ImageRegion N) : List (IndexType N) :=
  boxIndices N r.index r.size

/-- The test `region.IsInside(index)`. -/
def ImageRegion.IsInside {N : ℕ} (r : ImageRegion N) (index : IndexType N) : Prop :=
  ∀ i, r.index i ≤ index i ∧ index i < r.index i + (r.size i : ℤ)

/-! ## The filter -/

/-- The method `GetOutputVectorLength`. -/
def GetOutputVectorLength {N : ℕ} (f : Filter N) : ℕ :=
  if f.numberOfIndexedInputs > 0 then f.input.numberOfComponentsPerPixel else 0

/-- Modelled from the spec: `isZero`, declared in the header of the filter,
which is not part of the translated file. The spec describes the zero model as
the value with all components zero and asks for a predicate `isZero(value)`
detecting it. -/
def isZero (value : PixelType) : Bool :=
  value.all fun x => decide (x = 0)

/-- Modelled from the spec: `InitializeZeroPixel`, declared in the header of
the filter, which is not part of the translated file. The spec says the value
it produces is the zero model, all components zero, with as many components
as the input has per voxel. The source passes the pixel to overwrite by
reference; the value returned here is the content of that pixel afterwards. -/
def InitializeZeroPixel {N : ℕ} (f : Filter N) : PixelType :=
  List.replicate (GetOutputVectorLength f) 0

/-- The method `BeforeThreadedGenerateData`. -/
def BeforeThreadedGenerateData {N : ℕ} (env : Externals N) (f : Filter N) : SetupResult N :=
  let f1 : Filter N :=
    { f with
      m_StartIndex := f.input.largestPossibleRegion.index
      m_EndIndex := fun i =>
        f.input.largestPossibleRegion.index i + (f.input.largestPossibleRegion.size i : ℤ) }
  match f1.m_Transform with
  | none => { filter := f1, exception := some "No valid transformation..." }
  | some _ =>
    let interpolator : InterpolatorType N :=
      match f1.m_Interpolator with
      | none => env.newInterpolator
      | some interpolator => interpolator
    let f2 : Filter N :=
      { f1 with m_Interpolator := some { interpolator with inputImage := some f1.input } }
    let out1 : ImageType N :=
      { f2.output with
        spacing := f2.m_OutputSpacing
        origin := f2.m_OutputOrigin
        direction := f2.m_OutputDirection
        largestPossibleRegion := f2.m_OutputLargestPossibleRegion
        bufferedRegion := f2.m_OutputLargestPossibleRegion
        requestedRegion := f2.m_OutputLargestPossibleRegion
        numberOfComponentsPerPixel := GetOutputVectorLength f2 }
    let out2 : ImageType N := { out1 with buffer := env.Allocate out1 }
    let out3 : ImageType N := { out2 with requestedRegion := out2.largestPossibleRegion }
    let f3 : Filter N := { f2 with output := out3 }
    let f4 : Filter N :=
      if !f3.m_LinearTransform then
        { f3 with
          m_StartIndDef := f3.m_OutputLargestPossibleRegion.index
          m_EndIndDef := fun i =>
            f3.m_OutputLargestPossibleRegion.index i +
              (f3.m_OutputLargestPossibleRegion.size i : ℤ) }
      else f3
    { filter := f4, exception := none }

/-- The method `ComputeLinearJacobianMatrix`: the matrix of the transform seen
as a `MatrixTransformType`. -/
def ComputeLinearJacobianMatrix {N : ℕ} (f : Filter N) : Option (MatrixType N) := do
  let transform ← f.m_Transform
  let reorientationMatrix ← transform.GetMatrix
  pure reorientationMatrix

/-- The method `ComputeRotationParametersFromReorientationMatrix`. The result
is the pair (`reorientationMatrix` after the call, `modelOrientationMatrix`). -/
def ComputeRotationParametersFromReorientationMatrix {N : ℕ} (env : Externals N)
    (f : Filter N) (reorientationMatrix : MatrixType N) : MatrixType N × MatrixType N :=
  if f.m_FiniteStrainReorientation then
    env.ExtractRotationFromJacobianMatrix reorientationMatrix
  else
    (reorientationMatrix, reorientationMatrix)

/-- The index `posBef` of `ComputeLocalJacobianMatrix` for axis `i`. -/
def posBef {N : ℕ} (f : Filter N) (index : IndexType N) (i : Fin N) : IndexType N :=
  let posBef : IndexType N := Function.update index i (index i - 1)
  if posBef i < f.m_StartIndDef i then Function.update posBef i (f.m_StartIndDef i) else posBef

/-- The index `posAfter` of `ComputeLocalJacobianMatrix` for axis `i`. -/
def posAfter {N : ℕ} (f : Filter N) (index : IndexType N) (i : Fin N) : IndexType N :=
  let posAfter : IndexType N := Function.update index i (index i + 1)
  if posAfter i ≥ f.m_EndIndDef i then Function.update posAfter i (f.m_EndIndDef i - 1)
  else posAfter

/-- The matrix `deltaMatrix` of `ComputeLocalJacobianMatrix` when the first
loop ends: row `i` is zero except for a one on the diagonal when `posAfter[i]`
equals `posBef[i]`, and the difference of the two physical points otherwise. -/
def deltaMatrix {N : ℕ} (f : Filter N) (index : IndexType N) : MatrixType N :=
  Matrix.of fun i j =>
    if posAfter f index i i = posBef f index i i then (if j = i then 1 else 0)
    else
      TransformIndexToPhysicalPoint f.output (posAfter f index i) j -
        TransformIndexToPhysicalPoint f.output (posBef f index i) j

/-- The matrix `resDiff` of `ComputeLocalJacobianMatrix` when the first loop
ends: row `i` is left at zero when `posAfter[i]` equals `posBef[i]`, and is the
difference of the two transformed physical points otherwise. -/
def resDiff {N : ℕ} (f : Filter N) (transform : TransformType N) (index : IndexType N) :
    MatrixType N :=
  Matrix.of fun i j =>
    if posAfter f index i i = posBef f index i i then 0
    else
      transform.TransformPoint (TransformIndexToPhysicalPoint f.output (posAfter f index i)) j -
        transform.TransformPoint (TransformIndexToPhysicalPoint f.output (posBef f index i)) j

/-- The matrix `jacMatrix` of `ComputeLocalJacobianMatrix` after the second
loop, from the inverted `deltaMatrix` and `resDiff`. -/
def jacMatrix {N : ℕ} (invDelta diff : MatrixType N) : MatrixType N :=
  Matrix.of fun j i => ∑ k, invDelta i k * diff k j

/-- The method `ComputeLocalJacobianMatrix`. The source reads component `2`
of the definition domain bounds and writes entry `(2,2)` of the matrix, which
exist only when `ImageDimension` is at least three. -/
def ComputeLocalJacobianMatrix {N : ℕ} (env : Externals N) (f : Filter N)
    (index : IndexType N) : Option (MatrixType N) := do
  let transform ← f.m_Transform
  let invDelta := env.vnl_matrix_inverse (deltaMatrix f index)
  let jac := jacMatrix invDelta (resDiff f transform index)
  if h : 2 < N then
    if f.m_StartIndDef ⟨2, h⟩ = f.m_EndIndDef ⟨2, h⟩ - 1 then
      pure (Function.update jac ⟨2, h⟩ (Function.update (jac ⟨2, h⟩) ⟨2, h⟩ 1))
    else
      pure jac
  else
    none

/-- The last axis, `ImageDimension - 1`, of a grid with at least one axis. -/
def lastAxis {N : ℕ} (h : 0 < N) : Fin N := ⟨N - 1, Nat.sub_lt h Nat.one_pos⟩

/-- The value that one iteration of the loop of `LinearThreadedGenerateData`
writes at the output index `tmpInd`. The scratch pixels `tmpRes` and
`resRotated` are overwritten in every iteration before they are read. -/
def LinearVoxel {N : ℕ} (env : Externals N) (f : Filter N) (threadId : ThreadIdType)
    (parametersRotationMatrix : MatrixType N) (last : Fin N) (lastDimensionUseless : Bool)
    (tmpInd : IndexType N) : Option PixelType := do
  let tmpPoint := TransformIndexToPhysicalPoint f.output tmpInd
  let transform ← f.m_Transform
  let tmpPoint := transform.TransformPoint tmpPoint
  let index := TransformPhysicalPointToContinuousIndex f.input tmpPoint
  let index := if lastDimensionUseless then Function.update index last 0 else index
  let interpolator ← f.m_Interpolator
  let image ← interpolator.inputImage
  let tmpRes :=
    if interpolator.IsInsideBuffer image index then
      interpolator.EvaluateAtContinuousIndex image index
    else InitializeZeroPixel f
  if !isZero tmpRes then
    pure (env.ReorientInterpolatedModel tmpRes parametersRotationMatrix threadId)
  else
    pure tmpRes

/-- The method `LinearThreadedGenerateData`: the filter after the call, whose
output buffer holds the values written by the loop. -/
def LinearThreadedGenerateData {N : ℕ} (env : Externals N) (f : Filter N)
    (outputRegionForThread : ImageRegion N) (threadId : ThreadIdType) : Option (Filter N) := do
  let orientationMatrix ← ComputeLinearJacobianMatrix f
  let parametersRotationMatrix :=
    (ComputeRotationParametersFromReorientationMatrix env f orientationMatrix).2
  if h : 0 < N then
    let last : Fin N := lastAxis h
    let lastDimensionUseless := decide (f.input.largestPossibleRegion.size last ≤ 1)
    let buffer ← outputRegionForThread.indices.foldlM
      (fun buffer tmpInd => do
        let value ← LinearVoxel env f threadId parametersRotationMatrix last
          lastDimensionUseless tmpInd
        pure (Function.update buffer tmpInd value))
      f.output.buffer
    pure { f with output := { f.output with buffer := buffer } }
  else
    none

/-- The value that one iteration of the loop of
`NonLinearThreadedGenerateData` writes at the output index `tmpInd`. The
scratch pixels and matrices are overwritten in every iteration before they are
read. -/
def NonLinearVoxel {N : ℕ} (env : Externals N) (f : Filter N) (threadId : ThreadIdType)
    (tmpInd : IndexType N) : Option PixelType := do
  let tmpPoint := TransformIndexToPhysicalPoint f.output tmpInd
  let transform ← f.m_Transform
  let tmpPoint := transform.TransformPoint tmpPoint
  let index := TransformPhysicalPointToContinuousIndex f.input tmpPoint
  let interpolator ← f.m_Interpolator
  let image ← interpolator.inputImage
  let tmpRes :=
    if interpolator.IsInsideBuffer image index then
      interpolator.EvaluateAtContinuousIndex image index
    else InitializeZeroPixel f
  if !isZero tmpRes then
    let orientationMatrix ← ComputeLocalJacobianMatrix env f tmpInd
    let parametersRotationMatrix :=
      (ComputeRotationParametersFromReorientationMatrix env f orientationMatrix).2
    pure (env.ReorientInterpolatedModel tmpRes parametersRotationMatrix threadId)
  else
    pure tmpRes

/-- The method `NonLinearThreadedGenerateData`: the filter after the call,
whose output buffer holds the values written by the loop. -/
def NonLinearThreadedGenerateData {N : ℕ} (env : Externals N) (f : Filter N)
    (outputRegionForThread : ImageRegion N) (threadId : ThreadIdType) : Option (Filter N) := do
  let buffer ← outputRegionForThread.indices.foldlM
    (fun buffer tmpInd => do
      let value ← NonLinearVoxel env f threadId tmpInd
      pure (Function.update buffer tmpInd value))
    f.output.buffer
  pure { f with output := { f.output with buffer := buffer } }

/-- The method `ThreadedGenerateData`. -/
def ThreadedGenerateData {N : ℕ} (env : Externals N) (f : Filter N)
    (outputRegionForThread : ImageRegion N) (threadId : ThreadIdType) : Option (Filter N) :=
  if f.m_LinearTransform then
    LinearThreadedGenerateData env f outputRegionForThread threadId
  else
    NonLinearThreadedGenerateData env f outputRegionForThread threadId

/-! ## Vocabulary of the specification -/

/-- The continuous index of the input grid onto which an output index is
mapped: output index to physical point, through the transform, to continuous
index of the input. -/
def mappedIndex {N : ℕ} (f : Filter N) (transform : TransformType N) (idx : IndexType N) :
    ContinuousIndexType N :=
  TransformPhysicalPointToContinuousIndex f.input
    (transform.TransformPoint (TransformIndexToPhysicalPoint f.output idx))

/-- The continuous index tested on the linear path: the mapped index, with
its last component replaced by zero when the last dimension of the input has
size at most one. -/
def linearMappedIndex {N : ℕ} (f : Filter N) (transform : TransformType N) (h : 0 < N)
    (idx : IndexType N) : ContinuousIndexType N :=
  if f.input.largestPossibleRegion.size (lastAxis h) ≤ 1 then
    Function.update (mappedIndex f transform idx) (lastAxis h) 0
  else mappedIndex f transform idx

/-- The interpolated value at a continuous index: the value of the
interpolator inside the input buffer, the zero model outside. -/
def interpolatedValue {N : ℕ} (f : Filter N) (interpolator : InterpolatorType N)
    (image : ImageType N) (cIdx : ContinuousIndexType N) : PixelType :=
  if interpolator.IsInsideBuffer image cIdx then
    interpolator.EvaluateAtContinuousIndex image cIdx
  else InitializeZeroPixel f

/-- The value written for an interpolated value `v` and a matrix `M`: `v`
itself when it is zero, its reorientation by `M` otherwise. -/
def writtenValue {N : ℕ} (env : Externals N) (v : PixelType) (M : MatrixType N)
    (threadId : ThreadIdType) : PixelType :=
  if isZero v then v else env.ReorientInterpolatedModel v M threadId

/-- The contract of the library inverse in exact arithmetic: applied to a
non-singular matrix it returns its inverse. Nothing is assumed of its result on
a singular matrix. -/
def InverseContract {N : ℕ} (inv : MatrixType N → MatrixType N) : Prop :=
  ∀ M : MatrixType N, M.det ≠ 0 → inv M * M = 1

/-- Modelled from the spec: the result of `ExtractRotationFromJacobianMatrix`,
defined in the tensor tools of the repository, which are not part of the
translated file. The spec describes it as the finite-strain (polar)
decomposition `Jacobian = R·S` with `R` orthonormal and `S` symmetric
positive-(semi)definite, of which `R` is returned. `IsFiniteStrainRotation J R`
says that `R` is such a factor of `J`. -/
def IsFiniteStrainRotation {N : ℕ} (J R : MatrixType N) : Prop :=
  ∃ S : MatrixType N, J = R * S ∧ R.transpose * R = 1 ∧ S.transpose = S ∧
    ∀ x : Fin N → ℚ, 0 ≤ Matrix.dotProduct x (S.mulVec x)

/-! ## Worked examples

Concrete filters on which the statements below are evaluated. -/

/-- A cubic region: start index `start` and size `size` along every axis. -/
def cubeRegion (N : ℕ) (start : ℤ) (size : ℕ) : ImageRegion N :=
  { index := fun _ => start, size := fun _ => size }

/-- An image with unit spacing, zero origin, identity direction and one
component per voxel, over a given region. -/
def unitImage {N : ℕ} (region : ImageRegion N) (buffer : IndexType N → PixelType) :
    ImageType N :=
  { spacing := fun _ => 1
    origin := fun _ => 0
    direction := 1
    largestPossibleRegion := region
    bufferedRegion := region
    requestedRegion := region
    numberOfComponentsPerPixel := 1
    buffer := buffer }

/-- An interpolator whose buffer test is the half-open box of the voxel
centres widened by half a voxel, and whose value is that of the nearest voxel. -/
def boxInterpolator {N : ℕ} : InterpolatorType N :=
  { inputImage := none
    IsInsideBuffer := fun image cIdx =>
      decide (∀ i, (image.bufferedRegion.index i : ℚ) - 1 / 2 ≤ cIdx i ∧
        cIdx i < (image.bufferedRegion.index i : ℚ) + (image.bufferedRegion.size i : ℚ) - 1 / 2)
    EvaluateAtContinuousIndex := fun image cIdx => image.buffer fun i => ⌊cIdx i + 1 / 2⌋ }

/-- Collaborators for the examples: a reorientation that scales every
component by the determinant of the matrix, a rotation extraction that returns
its argument (exact on rotations), the adjugate inverse, the box interpolator
and a buffer allocated to zero. -/
def exampleExternals (N : ℕ) : Externals N :=
  { ReorientInterpolatedModel := fun value matrix _ => value.map fun x => x * matrix.det
    ExtractRotationFromJacobianMatrix := fun jacobian => (jacobian, jacobian)
    vnl_matrix_inverse := matrixInverse
    newInterpolator := boxInterpolator
    Allocate := fun image _ => List.replicate image.numberOfComponentsPerPixel 0 }

/-- The affine transform `p ↦ A p + b`, exposing its matrix when `linear`. -/
def affineTransform {N : ℕ} (A : MatrixType N) (b : PointType N) (linear : Bool) :
    TransformType N :=
  { TransformPoint := fun p => A.mulVec p + b
    GetMatrix := if linear then some A else none }

/-- The identity transform, exposing the identity matrix when `linear`. -/
def identityTransform (N : ℕ) (linear : Bool) : TransformType N :=
  { TransformPoint := fun p => p
    GetMatrix := if linear then some 1 else none }

/-- A filter as it stands after setup: the input is a unit image over
`inputRegion` whose voxels all hold `[1]`, the output is a unit image over
`outputRegion`, the interpolator is the box interpolator bound to the input and
the definition domain is the output region. -/
def exampleFilter {N : ℕ} (transform : TransformType N) (linear finiteStrain : Bool)
    (inputRegion outputRegion : ImageRegion N) : Filter N :=
  { numberOfIndexedInputs := 1
    input := unitImage inputRegion fun _ => [1]
    output := unitImage outputRegion fun _ => []
    m_Transform := some transform
    m_LinearTransform := linear
    m_Interpolator := some { boxInterpolator with
      inputImage := some (unitImage inputRegion fun _ => [1]) }
    m_FiniteStrainReorientation := finiteStrain
    m_OutputSpacing := fun _ => 1
    m_OutputOrigin := fun _ => 0
    m_OutputDirection := 1
    m_OutputLargestPossibleRegion := outputRegion
    m_StartIndex := inputRegion.index
    m_EndIndex := fun i => inputRegion.index i + (inputRegion.size i : ℤ)
    m_StartIndDef := outputRegion.index
    m_EndIndDef := fun i => outputRegion.index i + (outputRegion.size i : ℤ) }

/-- The rotation by a quarter turn about the third axis. -/
def quarterTurn : MatrixType 3 := !![0, -1, 0; 1, 0, 0; 0, 0, 1]

/-- The setting of identity transform invariance, on a filter as it stands
after setup: the transform is the identity (with the identity matrix when it
is a matrix transform), the interpolator is bound to the input, the output
geometry is that of the input and is well formed (positive spacing, invertible
direction), the interpolator is exact at the integer indices of the input
region, reorientation by the identity matrix returns its argument, the
collaborators meet their contracts (the rotation extracted from the identity
is a finite-strain factor of it, the library inverse is exact on non-singular
matrices), and on the nonlinear path the definition domain is the output
region. -/
def IdentitySetting {N : ℕ} (env : Externals N) (f : Filter N) (transform : TransformType N)
    (interpolator : InterpolatorType N) : Prop :=
  f.m_Transform = some transform ∧
  (∀ p, transform.TransformPoint p = p) ∧
  (f.m_LinearTransform = true → transform.GetMatrix = some 1) ∧
  f.m_Interpolator = some interpolator ∧
  interpolator.inputImage = some f.input ∧
  f.output.spacing = f.input.spacing ∧
  f.output.origin = f.input.origin ∧
  f.output.direction = f.input.direction ∧
  f.output.largestPossibleRegion = f.input.largestPossibleRegion ∧
  (∀ i, 0 < f.input.spacing i) ∧
  f.input.direction.det ≠ 0 ∧
  (∀ idx, f.input.largestPossibleRegion.IsInside idx →
    interpolator.IsInsideBuffer f.input (fun i => (idx i : ℚ)) = true ∧
    interpolator.EvaluateAtContinuousIndex f.input (fun i => (idx i : ℚ)) = f.input.buffer idx) ∧
  (∀ v threadId, env.ReorientInterpolatedModel v 1 threadId = v) ∧
  (f.m_FiniteStrainReorientation = true →
    IsFiniteStrainRotation 1 (env.ExtractRotationFromJacobianMatrix 1).2) ∧
  InverseContract env.vnl_matrix_inverse ∧
  (f.m_LinearTransform = false → ∀ i,
    f.m_StartIndDef i = f.output.largestPossibleRegion.index i ∧
    f.m_EndIndDef i = f.output.largestPossibleRegion.index i +
      (f.output.largestPossibleRegion.size i : ℤ))

/-- A region of a three-dimensional grid that is one voxel thick along the
first axis: start `(0,0,0)`, size `1 x 2 x 2`. -/
def thinFirstAxisRegion : ImageRegion 3 :=
  { index := fun _ => 0, size := ![1, 2, 2] }

/-- A single-voxel region of a three-dimensional grid that does not start at
zero along the last axis: start `(0,0,5)`, size `1 x 1 x 1`. -/
def shiftedSliceRegion : ImageRegion 3 :=
  { index := ![0, 0, 5], size := fun _ => 1 }

/-- A region of a four-dimensional grid that is one voxel thick along the last
axis: start `(0,0,0,0)`, size `2 x 2 x 2 x 1`. -/
def thinLastAxisRegion4 : ImageRegion 4 :=
  { index := fun _ => 0, size := ![2, 2, 2, 1] }

/-- An invertible matrix that is not symmetric: a shear. -/
def shearDelta : MatrixType 3 := !![1, -1, 0; 0, 1, 0; 0, 0, 1]

/-- The inverse of `shearDelta`. -/
def shearDeltaInverse : MatrixType 3 := !![1, 1, 0; 0, 1, 0; 0, 0, 1]

/-- A matrix with a single non-zero entry, at `(0,0)`. -/
def cornerDiff : MatrixType 3 := !![1, 0, 0; 0, 0, 0; 0, 0, 0]

/-- The filter with the pixel buffer of its output replaced. -/
def Filter.withBuffer {N : ℕ} (f : Filter N) (buffer : IndexType N → PixelType) : Filter N :=
  { f with output := { f.output with buffer := buffer } }

/-- The value that `ThreadedGenerateData` writes at an output index: on the
linear path the interpolated value at the index tested by the driver, written
with the rotation extracted from the matrix of the transform; on the nonlinear
path the interpolated value at the mapped index, written with the rotation
extracted from the local Jacobian. -/
def resampledValue {N : ℕ} (env : Externals N) (f : Filter N) (transform : TransformType N)
    (interpolator : InterpolatorType N) (image : ImageType N) (threadId : ThreadIdType)
    (idx : IndexType N) : PixelType :=
  if f.m_LinearTransform then
    if h : 0 < N then
      writtenValue env
        (interpolatedValue f interpolator image (linearMappedIndex f transform h idx))
        (ComputeRotationParametersFromReorientationMatrix env f
          (transform.GetMatrix.getD 0)).2 threadId
    else []
  else
    writtenValue env (interpolatedValue f interpolator image (mappedIndex f transform idx))
      (ComputeRotationParametersFromReorientationMatrix env f
        ((ComputeLocalJacobianMatrix env f idx).getD 0)).2 threadId

/-- Successive calls of `ThreadedGenerateData`, one for each listed region
with its worker identifier, in the order of the list, each call starting from
the filter left by the previous one. -/
def processRegions {N : ℕ} (env : Externals N) (f : Filter N)
    (parts : List (ImageRegion N × ThreadIdType)) : Option (Filter N) :=
  parts.foldlM (fun g part => ThreadedGenerateData env g part.1 part.2) f

/-- The lower half of the `2 x 2 x 2` cube at the origin: start `(0,0,0)`,
size `2 x 2 x 1`. -/
def lowerSlab : ImageRegion 3 :=
  { index := fun _ => 0, size := ![2, 2, 1] }

/-- The upper half of the `2 x 2 x 2` cube at the origin: start `(0,0,1)`,
size `2 x 2 x 1`. -/
def upperSlab : ImageRegion 3 :=
  { index := ![0, 0, 1], size := ![2, 2, 1] }

/-- The uniform scaling `p ↦ s p`, exposing its matrix when `linear`. -/
def scalingTransform (N : ℕ) (s : ℚ) (linear : Bool) : TransformType N :=
  { TransformPoint := fun p => s • p
    GetMatrix := if linear then some (s • 1) else none }

/-- A single slice of a three-dimensional grid: start `(0,0,0)`, size
`10 x 10 x 1`. -/
def sliceRegion : ImageRegion 3 :=
  { index := fun _ => 0, size := ![10, 10, 1] }

/-- An orthonormal direction matrix that tilts the slice: the rotation about
the first axis with cosine `3/5` and sine `4/5`. -/
def obliqueDirection : MatrixType 3 := !![1, 0, 0; 0, 3 / 5, -4 / 5; 0, 4 / 5, 3 / 5]

/-- The example filter with the scaling by two, over the single slice, whose
output grid has the oblique direction. -/
def obliqueSliceFilter : Filter 3 :=
  { exampleFilter (scalingTransform 3 2 false) false true sliceRegion sliceRegion with
    output := { unitImage sliceRegion (fun _ => []) with direction := obliqueDirection }
    m_OutputDirection := obliqueDirection }

/-- The matrix `deltaMatrix` of the oblique slice filter at the voxel `(0,0,0)`. -/
def obliqueDelta : MatrixType 3 := !![1, 0, 0; 0, 3 / 5, 4 / 5; 0, 0, 1]

/-- The inverse of `obliqueDelta`. -/
def obliqueDeltaInverse : MatrixType 3 := !![1, 0, 0; 0, 5 / 3, -4 / 3; 0, 0, 1]

/-- The bounds test of an interpolator along one axis, by the convention of
the image library: inside from the first index minus one half, included, to the
last index plus one half, excluded. -/
def insideAlongAxis {N : ℕ} (image : ImageType N) (cIdx : ContinuousIndexType N) (i : Fin N) :
    Prop :=
  (image.bufferedRegion.index i : ℚ) - 1 / 2 ≤ cIdx i ∧
    cIdx i < (image.bufferedRegion.index i : ℚ) + (image.bufferedRegion.size i : ℚ) - 1 / 2

/-- Collaborators whose rotation extraction returns the identity, which is
exact on symmetric positive definite matrices; otherwise those of
`exampleExternals`. -/
def stretchExternals : Externals 3 :=
  { exampleExternals 3 with
    ExtractRotationFromJacobianMatrix := fun jacobian => (jacobian, 1) }

/-- Collaborators whose reorientation scales every component by the squared
length of the third row of the matrix, which is one for the identity matrix;
otherwise those of `exampleExternals`. -/
def rowLengthExternals : Externals 3 :=
  { exampleExternals 3 with
    ReorientInterpolatedModel := fun value matrix _ =>
      value.map fun x => x * (matrix 2 0 ^ 2 + matrix 2 1 ^ 2 + matrix 2 2 ^ 2) }

/-- An image over the single slice with unit spacing, zero origin, one
component per voxel and the oblique direction. -/
def obliqueImage (buffer : IndexType 3 → PixelType) : ImageType 3 :=
  { unitImage sliceRegion buffer with direction := obliqueDirection }

/-- The example filter with the identity transform, as a transform without
matrix, over the single slice, whose input and output grids both have the
oblique direction. -/
def obliqueIdentityFilter : Filter 3 :=
  { exampleFilter (identityTransform 3 false) false false sliceRegion sliceRegion with
    input := obliqueImage fun _ => [1]
    output := obliqueImage fun _ => []
    m_Interpolator := some { boxInterpolator with
      inputImage := some (obliqueImage fun _ => [1]) }
    m_OutputDirection := obliqueDirection }

/-- The shear that `ComputeLocalJacobianMatrix` returns for the identity
transform on the oblique single slice. -/
def obliqueShear : MatrixType 3 := !![1, 0, 0; 0, 1, 0; 0, 4 / 3, 1]

/-! ## Region iteration -/

/-- The list `boxIndices` holds exactly the indices of the box. -/
theorem mem_boxIndices : ∀ (N : ℕ) (start : IndexType N) (size : SizeType N) (idx : IndexType N),
    idx ∈ boxIndices N start size ↔ ∀ i, start i ≤ idx i ∧ idx i < start i + (size i : ℤ)
  | 0, start, size, idx => by
    constructor
    · intro _ i
      exact i.elim0
    · intro _
      have : idx = fun i => i.elim0 := funext fun i => i.elim0
      simp [boxIndices, this]
  | N + 1, start, size, idx => by
    simp only [boxIndices, List.mem_flatMap, List.mem_range, List.mem_map]
    constructor
    · rintro ⟨k, hk, idx1, hmem, rfl⟩ i
      have ih := (mem_boxIndices N (Fin.init start) (Fin.init size) idx1).1 hmem
      refine Fin.lastCases ?_ (fun j => ?_) i
      · simp only [Fin.snoc_last]
        omega
      · have hj := ih j
        simp only [Fin.snoc_castSucc]
        simpa [Fin.init] using hj
    · intro h
      have hl := h (Fin.last N)
      refine ⟨(idx (Fin.last N) - start (Fin.last N)).toNat, by omega, Fin.init idx, ?_, ?_⟩
      · refine (mem_boxIndices N (Fin.init start) (Fin.init size) (Fin.init idx)).2 fun j => ?_
        simpa [Fin.init] using h j.castSucc
      · have hk : ((idx (Fin.last N) - start (Fin.last N)).toNat : ℤ)
            = idx (Fin.last N) - start (Fin.last N) := Int.toNat_of_nonneg (by omega)
        rw [hk]
        have : start (Fin.last N) + (idx (Fin.last N) - start (Fin.last N)) = idx (Fin.last N) := by
          ring
        rw [this]
        exact Fin.snoc_init_self idx

/-- An index is visited by the region iterator exactly when it is inside the region. -/
theorem ImageRegion.mem_indices {N : ℕ} (r : ImageRegion N) (idx : IndexType N) :
    idx ∈ r.indices ↔ r.IsInside idx :=
  mem_boxIndices N r.index r.size idx

/-- A loop that writes `g a` at every `a` of a list: when `g` succeeds on the list with
value `v`, the loop succeeds, the final buffer holds `v a` at every `a` of the list and is
unchanged elsewhere. -/
theorem foldlM_update {α β : Type} [DecidableEq α] (g : α → Option β) (v : α → β) :
    ∀ (l : List α) (b0 : α → β), (∀ a ∈ l, g a = some (v a)) →
      ∃ b, l.foldlM (fun b a => do
            let x ← g a
            pure (Function.update b a x)) b0 = some b ∧
        (∀ a ∈ l, b a = v a) ∧ ∀ a, a ∉ l → b a = b0 a
  | [], b0, _ => ⟨b0, rfl, by simp, fun _ _ => rfl⟩
  | a :: l, b0, h => by
    have ha : g a = some (v a) := h a (List.mem_cons_self a l)
    obtain ⟨b, hb, hin, hout⟩ := foldlM_update g v l (Function.update b0 a (v a))
      (fun x hx => h x (List.mem_cons_of_mem a hx))
    refine ⟨b, ?_, ?_, ?_⟩
    · simp only [List.foldlM_cons, ha]
      exact hb
    · intro x hx
      by_cases hxl : x ∈ l
      · exact hin x hxl
      · have hxa : x = a := by
          rcases List.mem_cons.1 hx with h1 | h1
          · exact h1
          · exact absurd h1 hxl
        subst hxa
        rw [hout x hxl]
        simp
    · intro x hx
      have hxa : x ≠ a := fun e => hx (e ▸ List.mem_cons_self a l)
      have hxl : x ∉ l := fun e => hx (List.mem_cons_of_mem a e)
      rw [hout x hxl]
      simp [Function.update, hxa]


/-- One iteration of the linear loop, once the transform, the interpolator and its image
are present. -/
theorem LinearVoxel_eq {N : ℕ} (env : Externals N) (f : Filter N) (threadId : ThreadIdType)
    (M : MatrixType N) (h : 0 < N) (transform : TransformType N)
    (interpolator : InterpolatorType N) (image : ImageType N)
    (hT : f.m_Transform = some transform) (hI : f.m_Interpolator = some interpolator)
    (himg : interpolator.inputImage = some image) (idx : IndexType N) :
    LinearVoxel env f threadId M (lastAxis h)
        (decide (f.input.largestPossibleRegion.size (lastAxis h) ≤ 1)) idx
      = some (writtenValue env
          (interpolatedValue f interpolator image (linearMappedIndex f transform h idx))
          M threadId) := by
  simp only [LinearVoxel, hT, hI, himg, writtenValue, interpolatedValue, linearMappedIndex,
    mappedIndex, Option.bind_eq_bind, Option.some_bind, Option.pure_def, decide_eq_true_eq]
  split_ifs <;> simp_all

/-- Pointwise description of `LinearThreadedGenerateData`: it succeeds, changes only the
output buffer, writes the reoriented interpolation at every index of the region and
leaves every other voxel as it was. -/
theorem linear_spec {N : ℕ} (env : Externals N) (f : Filter N) (region : ImageRegion N)
    (threadId : ThreadIdType) (h : 0 < N) (transform : TransformType N)
    (interpolator : InterpolatorType N) (image : ImageType N) (A : MatrixType N)
    (hT : f.m_Transform = some transform) (hI : f.m_Interpolator = some interpolator)
    (himg : interpolator.inputImage = some image) (hA : transform.GetMatrix = some A) :
    ∃ g, LinearThreadedGenerateData env f region threadId = some g ∧
      g = { f with output := { f.output with buffer := g.output.buffer } } ∧
      (∀ idx, region.IsInside idx →
        g.output.buffer idx = writtenValue env
          (interpolatedValue f interpolator image (linearMappedIndex f transform h idx))
          (ComputeRotationParametersFromReorientationMatrix env f A).2 threadId) ∧
      ∀ idx, ¬ region.IsInside idx → g.output.buffer idx = f.output.buffer idx := by
  obtain ⟨b, hb, hin, hout⟩ := foldlM_update
    (LinearVoxel env f threadId (ComputeRotationParametersFromReorientationMatrix env f A).2
      (lastAxis h) (decide (f.input.largestPossibleRegion.size (lastAxis h) ≤ 1)))
    (fun idx => writtenValue env
      (interpolatedValue f interpolator image (linearMappedIndex f transform h idx))
      (ComputeRotationParametersFromReorientationMatrix env f A).2 threadId)
    region.indices f.output.buffer
    (fun idx _ => LinearVoxel_eq env f threadId _ h transform interpolator image hT hI himg idx)
  refine ⟨{ f with output := { f.output with buffer := b } }, ?_, rfl, ?_, ?_⟩
  · simp only [LinearThreadedGenerateData, ComputeLinearJacobianMatrix, hT, hA, h,
      Option.bind_eq_bind, Option.some_bind, Option.pure_def, dite_true]
    simp only [Option.bind_eq_bind, Option.pure_def] at hb
    rw [hb]
    simp [hT]
  · intro idx hidx
    exact hin idx ((region.mem_indices idx).2 hidx)
  · intro idx hidx
    exact hout idx (fun hm => hidx ((region.mem_indices idx).1 hm))


/-- With a transform set and at least three axes, `ComputeLocalJacobianMatrix` returns a
matrix. -/
theorem ComputeLocalJacobianMatrix_isSome {N : ℕ} (env : Externals N) (f : Filter N)
    (h2 : 2 < N) (transform : TransformType N) (hT : f.m_Transform = some transform)
    (idx : IndexType N) : ∃ J, ComputeLocalJacobianMatrix env f idx = some J := by
  simp only [ComputeLocalJacobianMatrix, hT, h2, Option.bind_eq_bind, Option.some_bind,
    Option.pure_def, dite_true]
  split_ifs
  · exact ⟨_, rfl⟩
  · exact ⟨_, rfl⟩

/-- One iteration of the nonlinear loop, once the transform, the interpolator and its
image are present and the grid has at least three axes. -/
theorem NonLinearVoxel_eq {N : ℕ} (env : Externals N) (f : Filter N) (threadId : ThreadIdType)
    (h2 : 2 < N) (transform : TransformType N)
    (interpolator : InterpolatorType N) (image : ImageType N)
    (hT : f.m_Transform = some transform) (hI : f.m_Interpolator = some interpolator)
    (himg : interpolator.inputImage = some image) (idx : IndexType N) :
    NonLinearVoxel env f threadId idx
      = some (writtenValue env
          (interpolatedValue f interpolator image (mappedIndex f transform idx))
          (ComputeRotationParametersFromReorientationMatrix env f
            ((ComputeLocalJacobianMatrix env f idx).getD 0)).2 threadId) := by
  obtain ⟨J, hJ⟩ := ComputeLocalJacobianMatrix_isSome env f h2 transform hT idx
  simp only [NonLinearVoxel, hT, hI, himg, hJ, writtenValue, interpolatedValue,
    mappedIndex, Option.bind_eq_bind, Option.some_bind, Option.pure_def, Option.getD_some]
  split_ifs <;> simp_all

/-- Pointwise description of `NonLinearThreadedGenerateData`: it succeeds, changes only
the output buffer, writes the reoriented interpolation at every index of the region and
leaves every other voxel as it was. -/
theorem nonlinear_spec {N : ℕ} (env : Externals N) (f : Filter N) (region : ImageRegion N)
    (threadId : ThreadIdType) (h2 : 2 < N) (transform : TransformType N)
    (interpolator : InterpolatorType N) (image : ImageType N)
    (hT : f.m_Transform = some transform) (hI : f.m_Interpolator = some interpolator)
    (himg : interpolator.inputImage = some image) :
    ∃ g, NonLinearThreadedGenerateData env f region threadId = some g ∧
      g = { f with output := { f.output with buffer := g.output.buffer } } ∧
      (∀ idx, region.IsInside idx →
        ∃ J, ComputeLocalJacobianMatrix env f idx = some J ∧
          g.output.buffer idx = writtenValue env
            (interpolatedValue f interpolator image (mappedIndex f transform idx))
            (ComputeRotationParametersFromReorientationMatrix env f J).2 threadId) ∧
      ∀ idx, ¬ region.IsInside idx → g.output.buffer idx = f.output.buffer idx := by
  obtain ⟨b, hb, hin, hout⟩ := foldlM_update
    (NonLinearVoxel env f threadId)
    (fun idx => writtenValue env
      (interpolatedValue f interpolator image (mappedIndex f transform idx))
      (ComputeRotationParametersFromReorientationMatrix env f
        ((ComputeLocalJacobianMatrix env f idx).getD 0)).2 threadId)
    region.indices f.output.buffer
    (fun idx _ => NonLinearVoxel_eq env f threadId h2 transform interpolator image hT hI himg idx)
  refine ⟨{ f with output := { f.output with buffer := b } }, ?_, rfl, ?_, ?_⟩
  · simp only [NonLinearThreadedGenerateData, Option.bind_eq_bind, Option.pure_def]
    simp only [Option.bind_eq_bind, Option.pure_def] at hb
    rw [hb]
    simp
  · intro idx hidx
    obtain ⟨J, hJ⟩ := ComputeLocalJacobianMatrix_isSome env f h2 transform hT idx
    refine ⟨J, hJ, ?_⟩
    have := hin idx ((region.mem_indices idx).2 hidx)
    rw [hJ] at this
    exact this
  · intro idx hidx
    exact hout idx (fun hm => hidx ((region.mem_indices idx).1 hm))

/-! ## The local Jacobian -/

/-- The adjugate formula inverts a non-singular matrix. -/
theorem matrixInverse_mul {N : ℕ} (M : MatrixType N) (h : M.det ≠ 0) :
    matrixInverse M * M = 1 := by
  unfold matrixInverse
  rw [Matrix.smul_mul, Matrix.adjugate_mul, smul_smul, inv_mul_cancel₀ h, one_smul]

/-- The adjugate inverse meets the contract of the library inverse. -/
theorem matrixInverse_contract {N : ℕ} : InverseContract (matrixInverse : MatrixType N → _) :=
  fun M h => matrixInverse_mul M h

/-- Away from axis `i`, `posBef` is the voxel index. -/
theorem posBef_apply_ne {N : ℕ} (f : Filter N) (idx : IndexType N) {i c : Fin N} (h : c ≠ i) :
    posBef f idx i c = idx c := by
  unfold posBef
  split_ifs <;> simp [Function.update, h]

/-- Away from axis `i`, `posAfter` is the voxel index. -/
theorem posAfter_apply_ne {N : ℕ} (f : Filter N) (idx : IndexType N) {i c : Fin N} (h : c ≠ i) :
    posAfter f idx i c = idx c := by
  unfold posAfter
  split_ifs <;> simp [Function.update, h]

/-- Along axis `i`, `posBef` is the index minus one, clamped below. -/
theorem posBef_apply_self {N : ℕ} (f : Filter N) (idx : IndexType N) (i : Fin N) :
    posBef f idx i i = max (idx i - 1) (f.m_StartIndDef i) := by
  unfold posBef
  split_ifs with h <;> simp at h ⊢ <;> omega

/-- Along axis `i`, `posAfter` is the index plus one, clamped above. -/
theorem posAfter_apply_self {N : ℕ} (f : Filter N) (idx : IndexType N) (i : Fin N) :
    posAfter f idx i i = min (idx i + 1) (f.m_EndIndDef i - 1) := by
  unfold posAfter
  split_ifs with h <;> simp at h ⊢ <;> omega

/-- The difference of two physical points is linear in the difference of the indices. -/
theorem index_to_point_sub {N : ℕ} (img : ImageType N) (p q : IndexType N) (j : Fin N) :
    TransformIndexToPhysicalPoint img p j - TransformIndexToPhysicalPoint img q j
      = ∑ c, IndexToPhysicalPointMatrix img j c * ((p c : ℚ) - (q c : ℚ)) := by
  simp [TransformIndexToPhysicalPoint, mul_sub, Finset.sum_sub_distrib]

/-- The two neighbours of axis `i` differ along that axis only. -/
theorem point_diff_axis {N : ℕ} (f : Filter N) (idx : IndexType N) (i j : Fin N) :
    TransformIndexToPhysicalPoint f.output (posAfter f idx i) j -
        TransformIndexToPhysicalPoint f.output (posBef f idx i) j
      = IndexToPhysicalPointMatrix f.output j i *
          ((posAfter f idx i i : ℚ) - (posBef f idx i i : ℚ)) := by
  rw [index_to_point_sub, Finset.sum_eq_single i]
  · intro c _ hc
    rw [posAfter_apply_ne f idx hc, posBef_apply_ne f idx hc]
    simp
  · simp

/-- When no axis is degenerate, `deltaMatrix` is the diagonal matrix of the index steps
times the transposed index-to-point matrix. -/
theorem deltaMatrix_of_steps {N : ℕ} (f : Filter N) (idx : IndexType N)
    (hnd : ∀ i, posAfter f idx i i ≠ posBef f idx i i) :
    deltaMatrix f idx
      = Matrix.diagonal (fun i => (posAfter f idx i i : ℚ) - (posBef f idx i i : ℚ)) *
          (IndexToPhysicalPointMatrix f.output).transpose := by
  ext i j
  simp only [deltaMatrix, Matrix.of_apply, hnd i, if_false, point_diff_axis,
    Matrix.diagonal_mul, Matrix.transpose_apply]
  ring

/-- With positive spacing and invertible direction the index-to-point matrix is
non-singular. -/
theorem det_IndexToPhysicalPointMatrix {N : ℕ} (img : ImageType N)
    (hsp : ∀ i, 0 < img.spacing i) (hdir : img.direction.det ≠ 0) :
    (IndexToPhysicalPointMatrix img).det ≠ 0 := by
  unfold IndexToPhysicalPointMatrix
  rw [Matrix.det_mul, Matrix.det_diagonal]
  exact mul_ne_zero hdir (Finset.prod_ne_zero_iff.2 fun i _ => ne_of_gt (hsp i))

/-- When no axis is degenerate, `deltaMatrix` is non-singular. -/
theorem det_deltaMatrix_ne_zero {N : ℕ} (f : Filter N) (idx : IndexType N)
    (hsp : ∀ i, 0 < f.output.spacing i) (hdir : f.output.direction.det ≠ 0)
    (hnd : ∀ i, posAfter f idx i i ≠ posBef f idx i i) :
    (deltaMatrix f idx).det ≠ 0 := by
  rw [deltaMatrix_of_steps f idx hnd, Matrix.det_mul, Matrix.det_diagonal, Matrix.det_transpose]
  refine mul_ne_zero (Finset.prod_ne_zero_iff.2 fun i _ => ?_)
    (det_IndexToPhysicalPointMatrix f.output hsp hdir)
  exact sub_ne_zero.2 (by exact_mod_cast hnd i)

/-- For an affine transform with matrix `A` and no degenerate axis, `resDiff` is
`deltaMatrix` times the transpose of `A`. -/
theorem resDiff_affine {N : ℕ} (f : Filter N) (transform : TransformType N)
    (A : MatrixType N) (b : PointType N)
    (haff : ∀ p, transform.TransformPoint p = A.mulVec p + b) (idx : IndexType N)
    (hnd : ∀ i, posAfter f idx i i ≠ posBef f idx i i) :
    resDiff f transform idx = deltaMatrix f idx * A.transpose := by
  ext i j
  simp only [resDiff, deltaMatrix, Matrix.of_apply, hnd i, if_false, haff, Matrix.mul_apply,
    Matrix.transpose_apply, Pi.add_apply, Matrix.mulVec, Matrix.dotProduct]
  rw [add_sub_add_right_eq_sub, ← Finset.sum_sub_distrib]
  exact Finset.sum_congr rfl fun k _ => by ring

/-- The second loop of `ComputeLocalJacobianMatrix` computes the transpose of
`invDelta * diff`. -/
theorem jacMatrix_eq_transpose {N : ℕ} (invDelta diff : MatrixType N) :
    jacMatrix invDelta diff = (invDelta * diff).transpose := by
  ext j i
  simp [jacMatrix, Matrix.mul_apply]

/-- For an affine transform with matrix `A` and no degenerate axis, the estimate is `A`. -/
theorem jacMatrix_affine {N : ℕ} (env : Externals N) (f : Filter N)
    (transform : TransformType N) (A : MatrixType N) (b : PointType N)
    (haff : ∀ p, transform.TransformPoint p = A.mulVec p + b)
    (hsp : ∀ i, 0 < f.output.spacing i) (hdir : f.output.direction.det ≠ 0)
    (hinv : InverseContract env.vnl_matrix_inverse) (idx : IndexType N)
    (hnd : ∀ i, posAfter f idx i i ≠ posBef f idx i i) :
    jacMatrix (env.vnl_matrix_inverse (deltaMatrix f idx)) (resDiff f transform idx) = A := by
  rw [jacMatrix_eq_transpose, resDiff_affine f transform A b haff idx hnd, ← Matrix.mul_assoc,
    hinv _ (det_deltaMatrix_ne_zero f idx hsp hdir hnd), Matrix.one_mul, Matrix.transpose_transpose]

/-! ## Finite strain rotation -/

/-- A symmetric positive semi-definite orthogonal matrix is the identity. -/
theorem eq_one_of_symm_psd_orthogonal {N : ℕ} (S : MatrixType N) (hsym : S.transpose = S)
    (hpsd : ∀ x : Fin N → ℚ, 0 ≤ Matrix.dotProduct x (S.mulVec x))
    (horth : S.transpose * S = 1) : S = 1 := by
  have hSS : S * S = 1 := by rwa [hsym] at horth
  have hfix : ∀ x : Fin N → ℚ, S.mulVec x = x := by
    intro x
    have hy : S.mulVec (S.mulVec x - x) = -(S.mulVec x - x) := by
      rw [Matrix.mulVec_sub, Matrix.mulVec_mulVec, hSS, Matrix.one_mulVec]
      abel
    have h1 := hpsd (S.mulVec x - x)
    rw [hy, Matrix.dotProduct_neg] at h1
    have h2 : 0 ≤ Matrix.dotProduct (S.mulVec x - x) (S.mulVec x - x) :=
      Finset.sum_nonneg fun i _ => mul_self_nonneg _
    have h3 : Matrix.dotProduct (S.mulVec x - x) (S.mulVec x - x) = 0 := by linarith
    have h4 := Matrix.dotProduct_self_eq_zero.1 h3
    exact sub_eq_zero.1 h4
  ext i j
  have := congrFun (hfix (Pi.single j 1)) i
  rw [Matrix.mulVec_single_one] at this
  simpa [Matrix.one_apply, Pi.single_apply, eq_comm] using this

/-- The finite-strain rotation of an orthogonal matrix is that matrix. -/
theorem finite_strain_rotation_unique {N : ℕ} (Q R : MatrixType N)
    (hQ : Q.transpose * Q = 1) (h : IsFiniteStrainRotation Q R) : R = Q := by
  obtain ⟨S, hJ, hR, hsym, hpsd⟩ := h
  have hR2 : R * R.transpose = 1 := Matrix.mul_eq_one_comm.1 hR
  have hS : S = R.transpose * Q := by
    rw [hJ, ← Matrix.mul_assoc, hR, Matrix.one_mul]
  have horth : S.transpose * S = 1 := by
    rw [hS, Matrix.transpose_mul, Matrix.transpose_transpose, Matrix.mul_assoc,
      ← Matrix.mul_assoc R, hR2, Matrix.one_mul, hQ]
  have hS1 := eq_one_of_symm_psd_orthogonal S hsym hpsd horth
  rw [hJ, hS1, Matrix.mul_one]

/-! ## Grid geometry -/

/-- On a well-formed grid, index to point and back gives the index. -/
theorem index_point_roundtrip {N : ℕ} (img : ImageType N) (hsp : ∀ i, 0 < img.spacing i)
    (hdir : img.direction.det ≠ 0) (idx : IndexType N) :
    TransformPhysicalPointToContinuousIndex img (TransformIndexToPhysicalPoint img idx)
      = fun i => (idx i : ℚ) := by
  have h : TransformPhysicalPointToContinuousIndex img (TransformIndexToPhysicalPoint img idx)
      = (PhysicalPointToIndexMatrix img).mulVec
          ((IndexToPhysicalPointMatrix img).mulVec fun i => (idx i : ℚ)) := by
    funext r
    simp [TransformPhysicalPointToContinuousIndex, TransformIndexToPhysicalPoint,
      Matrix.mulVec, Matrix.dotProduct]
  rw [h, Matrix.mulVec_mulVec, PhysicalPointToIndexMatrix,
    matrixInverse_mul _ (det_IndexToPhysicalPointMatrix img hsp hdir), Matrix.one_mulVec]

/-- With the identity transform and identical well-formed geometries, an output index
is mapped onto itself. -/
theorem mappedIndex_identity {N : ℕ} (f : Filter N) (transform : TransformType N)
    (hid : ∀ p, transform.TransformPoint p = p)
    (hspacing : f.output.spacing = f.input.spacing) (horigin : f.output.origin = f.input.origin)
    (hdirection : f.output.direction = f.input.direction)
    (hsp : ∀ i, 0 < f.input.spacing i) (hdir : f.input.direction.det ≠ 0) (idx : IndexType N) :
    mappedIndex f transform idx = fun i => (idx i : ℚ) := by
  have h : TransformIndexToPhysicalPoint f.output idx
      = TransformIndexToPhysicalPoint f.input idx := by
    funext r
    simp [TransformIndexToPhysicalPoint, IndexToPhysicalPointMatrix, hspacing, horigin,
      hdirection]
  rw [mappedIndex, hid, h, index_point_roundtrip f.input hsp hdir]

/-- The example image has positive spacing. -/
theorem unitImage_spacing_pos {N : ℕ} (region : ImageRegion N) (buffer : IndexType N → PixelType)
    (i : Fin N) : 0 < (unitImage region buffer).spacing i := by
  simp [unitImage]

/-- The example image has an invertible direction. -/
theorem unitImage_det_ne_zero {N : ℕ} (region : ImageRegion N)
    (buffer : IndexType N → PixelType) : (unitImage region buffer).direction.det ≠ 0 := by
  simp [unitImage]

/-! ## The example interpolator -/

/-- The example interpolator finds every index of the region inside the buffer. -/
theorem boxInterpolator_inside {N : ℕ} (image : ImageType N) (idx : IndexType N)
    (h : image.bufferedRegion.IsInside idx) :
    (boxInterpolator : InterpolatorType N).IsInsideBuffer image (fun i => (idx i : ℚ))
      = true := by
  simp only [boxInterpolator, decide_eq_true_eq]
  intro i
  obtain ⟨h1, h2⟩ := h i
  have h1q : (image.bufferedRegion.index i : ℚ) ≤ (idx i : ℚ) := by exact_mod_cast h1
  have h2q : (idx i : ℚ) + 1 ≤ (image.bufferedRegion.index i : ℚ) +
      (image.bufferedRegion.size i : ℚ) := by exact_mod_cast h2
  constructor <;> linarith

/-- The example interpolator is exact at integer indices. -/
theorem boxInterpolator_evaluate {N : ℕ} (image : ImageType N) (idx : IndexType N) :
    (boxInterpolator : InterpolatorType N).EvaluateAtContinuousIndex image
      (fun i => (idx i : ℚ)) = image.buffer idx := by
  simp only [boxInterpolator]
  congr 1
  funext i
  rw [Int.floor_eq_iff]
  constructor <;> linarith

/-- The example filter interpolates `[1]` at every index of its input region. -/
theorem exampleFilter_value {N : ℕ} (transform : TransformType N) (linear finiteStrain : Bool)
    (inputRegion outputRegion : ImageRegion N) (idx : IndexType N)
    (h : inputRegion.IsInside idx) :
    interpolatedValue (exampleFilter transform linear finiteStrain inputRegion outputRegion)
      { boxInterpolator with inputImage := some (unitImage inputRegion fun _ => [1]) }
      (unitImage inputRegion fun _ => [1]) (fun i => (idx i : ℚ)) = [1] := by
  have h1 := boxInterpolator_inside (unitImage inputRegion fun _ => [1]) idx h
  have h2 := boxInterpolator_evaluate (unitImage inputRegion fun _ => [1]) idx
  simp only [interpolatedValue]
  rw [if_pos h1]
  exact h2

/-- The example filter with the identity transform maps an output index onto itself. -/
theorem exampleFilter_mappedIndex {N : ℕ} (linear finiteStrain linear2 : Bool)
    (inputRegion outputRegion : ImageRegion N) (idx : IndexType N) :
    mappedIndex (exampleFilter (identityTransform N linear2) linear finiteStrain inputRegion
      outputRegion) (identityTransform N linear2) idx = fun i => (idx i : ℚ) :=
  mappedIndex_identity _ _ (fun _ => rfl) rfl rfl rfl
    (unitImage_spacing_pos _ _) (unitImage_det_ne_zero _ _) idx

/-! ## The zero model -/

/-- The zero model is zero. -/
theorem isZero_InitializeZeroPixel {N : ℕ} (f : Filter N) :
    isZero (InitializeZeroPixel f) = true := by
  simp [isZero, InitializeZeroPixel]

/-- The zero model is written as it is, whatever the matrix. -/
theorem writtenValue_zero {N : ℕ} (env : Externals N) (f : Filter N) (M : MatrixType N)
    (threadId : ThreadIdType) :
    writtenValue env (InitializeZeroPixel f) M threadId = InitializeZeroPixel f := by
  simp [writtenValue, isZero_InitializeZeroPixel]

/-- The quarter turn is orthogonal. -/
theorem quarterTurn_orthogonal : quarterTurn.transpose * quarterTurn = 1 := by
  ext i j
  fin_cases i <;> fin_cases j <;>
    simp [quarterTurn, Matrix.mul_apply, Fin.sum_univ_three, Matrix.one_apply, Matrix.transpose,
      Matrix.vecHead, Matrix.vecTail]

/-- The quarter turn has determinant one. -/
theorem quarterTurn_det : quarterTurn.det = 1 := by
  simp [quarterTurn, Matrix.det_fin_three]

/-- An orthogonal matrix is a finite-strain rotation of itself. -/
theorem isFiniteStrainRotation_self {N : ℕ} (Q : MatrixType N)
    (hQ : Q.transpose * Q = 1) : IsFiniteStrainRotation Q Q := by
  refine ⟨1, by simp, hQ, by simp, fun x => ?_⟩
  rw [Matrix.one_mulVec]
  exact Finset.sum_nonneg fun i _ => mul_self_nonneg _

/-! ## The local Jacobian of an affine transform -/

/-- For an affine transform with matrix `A`, on a well-formed output grid, at a voxel
where no axis is degenerate and when the fix-up of axis 2 does not apply,
`ComputeLocalJacobianMatrix` returns `A`. -/
theorem ComputeLocalJacobianMatrix_affine {N : ℕ} (env : Externals N) (f : Filter N)
    (transform : TransformType N) (A : MatrixType N) (b : PointType N) (idx : IndexType N)
    (h2 : 2 < N) (hT : f.m_Transform = some transform)
    (haff : ∀ p, transform.TransformPoint p = A.mulVec p + b)
    (hsp : ∀ i, 0 < f.output.spacing i) (hdir : f.output.direction.det ≠ 0)
    (hinv : InverseContract env.vnl_matrix_inverse)
    (hnd : ∀ i, posAfter f idx i i ≠ posBef f idx i i)
    (hfix : ¬ f.m_StartIndDef ⟨2, h2⟩ = f.m_EndIndDef ⟨2, h2⟩ - 1) :
    ComputeLocalJacobianMatrix env f idx = some A := by
  simp only [ComputeLocalJacobianMatrix, hT, h2, hfix, Option.bind_eq_bind, Option.some_bind,
    Option.pure_def, dite_true, if_false]
  rw [jacMatrix_affine env f transform A b haff hsp hdir hinv idx hnd]

/-- Inside a definition domain at least two voxels thick along every axis, no axis is
degenerate. -/
theorem steps_of_thick_domain {N : ℕ} (f : Filter N) (idx : IndexType N)
    (hin : ∀ i, f.m_StartIndDef i ≤ idx i ∧ idx i < f.m_EndIndDef i)
    (hthick : ∀ i, f.m_StartIndDef i + 2 ≤ f.m_EndIndDef i) (i : Fin N) :
    posAfter f idx i i ≠ posBef f idx i i := by
  rw [posAfter_apply_self, posBef_apply_self]
  have h1 := hin i
  have h3 := hthick i
  omega

/-- For an affine transform with matrix `A`, on a well-formed output grid, at every voxel
of a definition domain at least two voxels thick along every axis,
`ComputeLocalJacobianMatrix` returns `A`. -/
theorem ComputeLocalJacobianMatrix_thick {N : ℕ} (env : Externals N) (f : Filter N)
    (transform : TransformType N) (A : MatrixType N) (b : PointType N) (idx : IndexType N)
    (h2 : 2 < N) (hT : f.m_Transform = some transform)
    (haff : ∀ p, transform.TransformPoint p = A.mulVec p + b)
    (hsp : ∀ i, 0 < f.output.spacing i) (hdir : f.output.direction.det ≠ 0)
    (hinv : InverseContract env.vnl_matrix_inverse)
    (hin : ∀ i, f.m_StartIndDef i ≤ idx i ∧ idx i < f.m_EndIndDef i)
    (hthick : ∀ i, f.m_StartIndDef i + 2 ≤ f.m_EndIndDef i) :
    ComputeLocalJacobianMatrix env f idx = some A := by
  refine ComputeLocalJacobianMatrix_affine env f transform A b idx h2 hT haff hsp hdir hinv
    (steps_of_thick_domain f idx hin hthick) ?_
  have := hthick ⟨2, h2⟩
  omega

/-- When the definition domain has extent one along axis 2, the returned matrix has
entry `(2,2)` equal to one. -/
theorem ComputeLocalJacobianMatrix_fixup {N : ℕ} (env : Externals N) (f : Filter N)
    (transform : TransformType N) (idx : IndexType N) (h2 : 2 < N)
    (hT : f.m_Transform = some transform)
    (hthin : f.m_EndIndDef ⟨2, h2⟩ - f.m_StartIndDef ⟨2, h2⟩ = 1) :
    ∃ J, ComputeLocalJacobianMatrix env f idx = some J ∧ J ⟨2, h2⟩ ⟨2, h2⟩ = 1 := by
  have hfix : f.m_StartIndDef ⟨2, h2⟩ = f.m_EndIndDef ⟨2, h2⟩ - 1 := by omega
  simp only [ComputeLocalJacobianMatrix, hT, h2, Option.bind_eq_bind, Option.some_bind,
    Option.pure_def, dite_true]
  rw [if_pos hfix]
  exact ⟨_, rfl, by simp⟩

/-- When the fix-up of axis 2 does not apply, the returned matrix is the estimate. -/
theorem ComputeLocalJacobianMatrix_nofixup {N : ℕ} (env : Externals N) (f : Filter N)
    (transform : TransformType N) (idx : IndexType N) (h2 : 2 < N)
    (hT : f.m_Transform = some transform)
    (hfix : ¬ f.m_StartIndDef ⟨2, h2⟩ = f.m_EndIndDef ⟨2, h2⟩ - 1) :
    ComputeLocalJacobianMatrix env f idx
      = some (jacMatrix (env.vnl_matrix_inverse (deltaMatrix f idx))
          (resDiff f transform idx)) := by
  simp only [ComputeLocalJacobianMatrix, hT, h2, hfix, Option.bind_eq_bind, Option.some_bind,
    Option.pure_def, dite_true, if_false]

/-- When `resDiff` has a zero row, the estimate is singular. -/
theorem det_jacMatrix_of_zero_row {N : ℕ} (invDelta diff : MatrixType N) (i : Fin N)
    (h : ∀ j, diff i j = 0) : (jacMatrix invDelta diff).det = 0 := by
  rw [jacMatrix_eq_transpose, Matrix.det_transpose, Matrix.det_mul,
    Matrix.det_eq_zero_of_row_eq_zero i h, mul_zero]

/-! ## Identity transform -/

/-- The rotation extracted from the identity matrix is the identity matrix. -/
theorem rotation_of_identity {N : ℕ} (env : Externals N) (f : Filter N)
    (hrot : f.m_FiniteStrainReorientation = true →
      IsFiniteStrainRotation 1 (env.ExtractRotationFromJacobianMatrix 1).2) :
    (ComputeRotationParametersFromReorientationMatrix env f 1).2 = 1 := by
  cases hfs : f.m_FiniteStrainReorientation with
  | false => simp [ComputeRotationParametersFromReorientationMatrix, hfs]
  | true =>
    simp only [ComputeRotationParametersFromReorientationMatrix, hfs, if_true]
    exact finite_strain_rotation_unique 1 _ (by simp) (hrot hfs)

/-- When reorientation by the identity returns its argument, every value is written as
it is. -/
theorem writtenValue_identity {N : ℕ} (env : Externals N)
    (hreo : ∀ v threadId, env.ReorientInterpolatedModel v 1 threadId = v) (v : PixelType)
    (threadId : ThreadIdType) : writtenValue env v 1 threadId = v := by
  simp only [writtenValue, hreo]
  split_ifs <;> rfl

/-- The example filter with the identity transform and identical input and output
regions is in the setting of identity transform invariance. -/
theorem exampleFilter_identitySetting (N : ℕ) (linear finiteStrain : Bool)
    (region : ImageRegion N) :
    IdentitySetting (exampleExternals N)
      (exampleFilter (identityTransform N linear) linear finiteStrain region region)
      (identityTransform N linear)
      { boxInterpolator with inputImage := some (unitImage region fun _ => [1]) } := by
  refine ⟨rfl, fun _ => rfl, fun h => ?_, rfl, rfl, rfl, rfl, rfl, rfl,
    unitImage_spacing_pos _ _, unitImage_det_ne_zero _ _, fun idx hidx => ⟨?_, ?_⟩,
    fun v _ => ?_, fun _ => isFiniteStrainRotation_self 1 (by simp), matrixInverse_contract,
    fun _ _ => ⟨rfl, rfl⟩⟩
  · have hl : linear = true := h
    simp [identityTransform, hl]
  · exact boxInterpolator_inside (unitImage region fun _ => [1]) idx hidx
  · exact boxInterpolator_evaluate (unitImage region fun _ => [1]) idx
  · simp [exampleExternals]

/-! ## Writes of one call and of several calls -/

/-- The region iterator visits no index twice. -/
theorem nodup_boxIndices : ∀ (N : ℕ) (start : IndexType N) (size : SizeType N),
    (boxIndices N start size).Nodup
  | 0, _, _ => by simp [boxIndices]
  | N + 1, start, size => by
    simp only [boxIndices]
    rw [List.nodup_flatMap]
    constructor
    · intro k _
      refine (nodup_boxIndices N _ _).map ?_
      intro a b hab
      have h := congrArg (fun v : Fin (N + 1) → ℤ => Fin.init v) hab
      simpa using h
    · refine (List.nodup_range _).imp ?_
      intro a b hab
      simp only [Function.onFun]
      rw [List.disjoint_left]
      intro x hxa hxb
      obtain ⟨ia, _, rfl⟩ := List.mem_map.1 hxa
      obtain ⟨ib, _, hb⟩ := List.mem_map.1 hxb
      have h := congrFun hb (Fin.last N)
      simp only [Fin.snoc_last] at h
      exact hab (by omega)

/-- The region iterator visits every index of the region exactly once and no
other index. -/
theorem ImageRegion.count_indices {N : ℕ} (r : ImageRegion N) (idx : IndexType N) :
    r.indices.count idx = if idx ∈ r.indices then 1 else 0 := by
  split_ifs with h
  · exact List.count_eq_one_of_mem (nodup_boxIndices N r.index r.size) h
  · exact List.count_eq_zero_of_not_mem h

/-- A loop that writes `g a` at every `a` of a list, when `g` succeeds on the
list with value `v`, is the sequence of writes of `v a` at `a`, one for each
element of the list. -/
theorem foldlM_update_eq_foldl {α β : Type} [DecidableEq α] (g : α → Option β) (v : α → β) :
    ∀ (l : List α) (b0 : α → β), (∀ a ∈ l, g a = some (v a)) →
      l.foldlM (fun b a => (g a).bind fun x => some (Function.update b a x)) b0
        = some (l.foldl (fun b a => Function.update b a (v a)) b0)
  | [], _, _ => rfl
  | a :: l, b0, h => by
    have ha : g a = some (v a) := h a (List.mem_cons_self a l)
    simp only [List.foldlM_cons, ha, Option.some_bind, List.foldl_cons, Option.bind_eq_bind]
    exact foldlM_update_eq_foldl g v l _ (fun x hx => h x (List.mem_cons_of_mem a hx))

/-- After a sequence of writes of `v a` at every `a` of a list, the buffer
holds `v a` at the elements of the list and is unchanged elsewhere. -/
theorem foldl_update_apply {α β : Type} [DecidableEq α] (v : α → β) :
    ∀ (l : List α) (b0 : α → β) (x : α),
      l.foldl (fun b a => Function.update b a (v a)) b0 x = if x ∈ l then v x else b0 x
  | [], _, _ => by simp
  | a :: l, b0, x => by
    rw [List.foldl_cons, foldl_update_apply v l _ x]
    by_cases hxl : x ∈ l
    · simp [hxl]
    · by_cases hxa : x = a
      · subst hxa
        simp [hxl]
      · simp [hxl, hxa]

/-- The value written does not depend on the content of the output buffer. -/
theorem resampledValue_withBuffer {N : ℕ} (env : Externals N) (f : Filter N)
    (buffer : IndexType N → PixelType) (transform : TransformType N)
    (interpolator : InterpolatorType N) (image : ImageType N) (threadId : ThreadIdType)
    (idx : IndexType N) :
    resampledValue env (f.withBuffer buffer) transform interpolator image threadId idx
      = resampledValue env f transform interpolator image threadId idx := rfl

/-- When the result of the reorientation does not depend on the worker
identifier, neither does the value written. -/
theorem resampledValue_thread {N : ℕ} (env : Externals N) (f : Filter N)
    (transform : TransformType N) (interpolator : InterpolatorType N) (image : ImageType N)
    (hthread : ∀ v M t1 t2,
      env.ReorientInterpolatedModel v M t1 = env.ReorientInterpolatedModel v M t2)
    (t1 t2 : ThreadIdType) (idx : IndexType N) :
    resampledValue env f transform interpolator image t1 idx
      = resampledValue env f transform interpolator image t2 idx := by
  simp only [resampledValue, writtenValue]
  split_ifs <;> first | rfl | exact hthread _ _ _ _

/-- One call of `ThreadedGenerateData`, on either path, started from any
content of the output buffer: it succeeds, changes nothing but the output
buffer, and its effect on the buffer is one write of the resampled value at
every index visited by the region iterator, in the order of the iterator. -/
theorem threaded_writes {N : ℕ} (env : Externals N) (f : Filter N) (region : ImageRegion N)
    (threadId : ThreadIdType) (transform : TransformType N)
    (interpolator : InterpolatorType N) (image : ImageType N)
    (hT : f.m_Transform = some transform) (hI : f.m_Interpolator = some interpolator)
    (himg : interpolator.inputImage = some image)
    (hlin : f.m_LinearTransform = true → 0 < N ∧ ∃ A, transform.GetMatrix = some A)
    (hnl : f.m_LinearTransform = false → 2 < N) (buffer : IndexType N → PixelType) :
    ThreadedGenerateData env (f.withBuffer buffer) region threadId
      = some (f.withBuffer (region.indices.foldl
          (fun b idx => Function.update b idx
            (resampledValue env f transform interpolator image threadId idx)) buffer)) := by
  cases hl : f.m_LinearTransform with
  | true =>
    obtain ⟨h0, A, hA⟩ := hlin hl
    have hloop := foldlM_update_eq_foldl
      (LinearVoxel env (f.withBuffer buffer) threadId
        (ComputeRotationParametersFromReorientationMatrix env (f.withBuffer buffer) A).2
        (lastAxis h0)
        (decide ((f.withBuffer buffer).input.largestPossibleRegion.size (lastAxis h0) ≤ 1)))
      (resampledValue env f transform interpolator image threadId)
      region.indices buffer
      (fun idx _ => by
        rw [LinearVoxel_eq env (f.withBuffer buffer) threadId _ h0 transform interpolator image
          hT hI himg idx]
        simp only [resampledValue, hl, h0, hA, if_true, dite_true, Option.getD_some]
        rfl)
    have hm : (f.withBuffer buffer).m_LinearTransform = true := hl
    have hT2 : (f.withBuffer buffer).m_Transform = some transform := hT
    simp only [ThreadedGenerateData, hm, if_true, LinearThreadedGenerateData,
      ComputeLinearJacobianMatrix, hT2, hA, h0, Option.bind_eq_bind, Option.some_bind,
      Option.pure_def, dite_true]
    simp only [Option.bind_eq_bind] at hloop
    have hb : (f.withBuffer buffer).output.buffer = buffer := rfl
    rw [hb, hloop]
    simp [Filter.withBuffer, hT, hl]
  | false =>
    have h2 := hnl hl
    have hloop := foldlM_update_eq_foldl
      (NonLinearVoxel env (f.withBuffer buffer) threadId)
      (resampledValue env f transform interpolator image threadId)
      region.indices buffer
      (fun idx _ => by
        rw [NonLinearVoxel_eq env (f.withBuffer buffer) threadId h2 transform interpolator
          image hT hI himg idx]
        simp only [resampledValue, hl, Bool.false_eq_true, if_false]
        rfl)
    have hm : (f.withBuffer buffer).m_LinearTransform = false := hl
    simp only [ThreadedGenerateData, hm, Bool.false_eq_true, if_false,
      NonLinearThreadedGenerateData, Option.bind_eq_bind, Option.pure_def]
    simp only [Option.bind_eq_bind] at hloop
    have hb : (f.withBuffer buffer).output.buffer = buffer := rfl
    rw [hb, hloop]
    simp [Filter.withBuffer, hT, hl]

/-- Several calls of `ThreadedGenerateData` one after the other, started from
any content of the output buffer: they succeed, change nothing but the output
buffer, leave the resampled value at every index of one of the regions and
leave every other voxel as it was. -/
theorem processRegions_spec {N : ℕ} (env : Externals N) (f : Filter N)
    (transform : TransformType N) (interpolator : InterpolatorType N) (image : ImageType N)
    (hT : f.m_Transform = some transform) (hI : f.m_Interpolator = some interpolator)
    (himg : interpolator.inputImage = some image)
    (hlin : f.m_LinearTransform = true → 0 < N ∧ ∃ A, transform.GetMatrix = some A)
    (hnl : f.m_LinearTransform = false → 2 < N)
    (hthread : ∀ v M t1 t2,
      env.ReorientInterpolatedModel v M t1 = env.ReorientInterpolatedModel v M t2)
    (threadId : ThreadIdType) :
    ∀ (parts : List (ImageRegion N × ThreadIdType)) (buffer : IndexType N → PixelType),
      ∃ b, processRegions env (f.withBuffer buffer) parts = some (f.withBuffer b) ∧
        (∀ idx, (∃ part ∈ parts, part.1.IsInside idx) →
          b idx = resampledValue env f transform interpolator image threadId idx) ∧
        ∀ idx, (¬ ∃ part ∈ parts, part.1.IsInside idx) → b idx = buffer idx
  | [], buffer => ⟨buffer, rfl, fun idx h => by simp at h, fun _ _ => rfl⟩
  | part :: parts, buffer => by
    have h1 := threaded_writes env f part.1 part.2 transform interpolator image hT hI himg
      hlin hnl buffer
    obtain ⟨b, hb, hin, hout⟩ := processRegions_spec env f transform interpolator image hT hI
      himg hlin hnl hthread threadId parts
      (part.1.indices.foldl (fun b idx => Function.update b idx
        (resampledValue env f transform interpolator image part.2 idx)) buffer)
    refine ⟨b, ?_, fun idx hidx => ?_, fun idx hidx => ?_⟩
    · simp only [processRegions, List.foldlM_cons, h1, Option.bind_eq_bind, Option.some_bind]
      exact hb
    · by_cases hrest : ∃ p ∈ parts, p.1.IsInside idx
      · exact hin idx hrest
      · have hhead : part.1.IsInside idx := by
          obtain ⟨p, hp, hpi⟩ := hidx
          rcases List.mem_cons.1 hp with h | h
          · exact h ▸ hpi
          · exact absurd ⟨p, h, hpi⟩ hrest
        rw [hout idx hrest, foldl_update_apply, if_pos ((part.1.mem_indices idx).2 hhead)]
        exact resampledValue_thread env f transform interpolator image hthread _ _ idx
    · have hrest : ¬ ∃ p ∈ parts, p.1.IsInside idx := by
        rintro ⟨p, hp, hpi⟩
        exact hidx ⟨p, List.mem_cons_of_mem _ hp, hpi⟩
      have hhead : ¬ part.1.IsInside idx := fun h =>
        hidx ⟨part, List.mem_cons_self _ _, h⟩
      rw [hout idx hrest, foldl_update_apply,
        if_neg (fun h => hhead ((part.1.mem_indices idx).1 h))]

/-! ## The local Jacobian over a single slice -/

/-- An entry of the index-to-point matrix. -/
theorem IndexToPhysicalPointMatrix_apply {N : ℕ} (img : ImageType N) (r c : Fin N) :
    IndexToPhysicalPointMatrix img r c = img.direction r c * img.spacing c := by
  simp [IndexToPhysicalPointMatrix, Matrix.mul_diagonal]

/-- Row `i` of `deltaMatrix` when axis `i` is degenerate. -/
theorem deltaMatrix_apply_thin {N : ℕ} (f : Filter N) (idx : IndexType N) (i j : Fin N)
    (h : posAfter f idx i i = posBef f idx i i) :
    deltaMatrix f idx i j = if j = i then 1 else 0 := by
  simp [deltaMatrix, h]

/-- Row `i` of `deltaMatrix` when axis `i` is not degenerate. -/
theorem deltaMatrix_apply_step {N : ℕ} (f : Filter N) (idx : IndexType N) (i j : Fin N)
    (h : ¬ posAfter f idx i i = posBef f idx i i) :
    deltaMatrix f idx i j = IndexToPhysicalPointMatrix f.output j i *
      ((posAfter f idx i i : ℚ) - (posBef f idx i i : ℚ)) := by
  simp only [deltaMatrix, Matrix.of_apply, h, if_false, point_diff_axis]

/-- Row `i` of `resDiff` when axis `i` is degenerate. -/
theorem resDiff_apply_thin {N : ℕ} (f : Filter N) (transform : TransformType N)
    (idx : IndexType N) (i j : Fin N) (h : posAfter f idx i i = posBef f idx i i) :
    resDiff f transform idx i j = 0 := by
  simp [resDiff, h]

/-- Row `i` of `resDiff` for an affine transform when axis `i` is not
degenerate: row `i` of `deltaMatrix` times the transposed matrix. -/
theorem resDiff_apply_affine {N : ℕ} (f : Filter N) (transform : TransformType N)
    (A : MatrixType N) (b : PointType N)
    (haff : ∀ p, transform.TransformPoint p = A.mulVec p + b) (idx : IndexType N)
    (i j : Fin N) (h : ¬ posAfter f idx i i = posBef f idx i i) :
    resDiff f transform idx i j = (deltaMatrix f idx * A.transpose) i j := by
  simp only [resDiff, deltaMatrix, Matrix.of_apply, h, if_false, haff, Matrix.mul_apply,
    Matrix.transpose_apply, Pi.add_apply, Matrix.mulVec, Matrix.dotProduct]
  rw [add_sub_add_right_eq_sub, ← Finset.sum_sub_distrib]
  exact Finset.sum_congr rfl fun k _ => by ring

/-- When axis `k` is the only degenerate axis, `deltaMatrix` is the diagonal
matrix of the index steps (one for axis `k`) times the transpose of the
index-to-point matrix with column `k` replaced by the unit vector of axis `k`. -/
theorem deltaMatrix_single_thin_axis {N : ℕ} (f : Filter N) (idx : IndexType N) (k : Fin N)
    (hk : posAfter f idx k k = posBef f idx k k)
    (hnd : ∀ i, i ≠ k → ¬ posAfter f idx i i = posBef f idx i i) :
    deltaMatrix f idx
      = Matrix.diagonal (fun i => if i = k then (1 : ℚ)
          else (posAfter f idx i i : ℚ) - (posBef f idx i i : ℚ)) *
        ((IndexToPhysicalPointMatrix f.output).updateColumn k (Pi.single k 1)).transpose := by
  ext i j
  rw [Matrix.diagonal_mul, Matrix.transpose_apply]
  by_cases hi : i = k
  · subst hi
    rw [deltaMatrix_apply_thin f idx i j hk, Matrix.updateColumn_self]
    simp [Pi.single_apply]
  · rw [deltaMatrix_apply_step f idx i j (hnd i hi), Matrix.updateColumn_ne hi, if_neg hi]
    ring

/-- When row `k` of a non-singular matrix is zero off the diagonal, replacing
column `k` by the unit vector of axis `k` leaves it non-singular. -/
theorem det_updateColumn_single_ne_zero {N : ℕ} (M : MatrixType N) (k : Fin N)
    (hM : ∀ i, i ≠ k → M k i = 0) (hdet : M.det ≠ 0) :
    (M.updateColumn k (Pi.single k 1)).det ≠ 0 := by
  have h := congrFun (Matrix.mulVec_cramer M (Pi.single k 1)) k
  simp only [Matrix.mulVec, Matrix.dotProduct, Pi.smul_apply, Pi.single_eq_same, smul_eq_mul,
    mul_one] at h
  rw [Finset.sum_eq_single k (fun l _ hl => by rw [hM l hl, zero_mul]) (by simp),
    Matrix.cramer_apply] at h
  intro h0
  rw [h0, mul_zero] at h
  exact hdet h.symm

/-- When axis `k` is the only degenerate axis and row `k` of the index-to-point
matrix is zero off the diagonal, `deltaMatrix` is non-singular. -/
theorem det_deltaMatrix_single_thin_axis {N : ℕ} (f : Filter N) (idx : IndexType N)
    (k : Fin N) (hsp : ∀ i, 0 < f.output.spacing i) (hdir : f.output.direction.det ≠ 0)
    (hk : posAfter f idx k k = posBef f idx k k)
    (hnd : ∀ i, i ≠ k → ¬ posAfter f idx i i = posBef f idx i i)
    (hM : ∀ i, i ≠ k → IndexToPhysicalPointMatrix f.output k i = 0) :
    (deltaMatrix f idx).det ≠ 0 := by
  rw [deltaMatrix_single_thin_axis f idx k hk hnd, Matrix.det_mul, Matrix.det_diagonal,
    Matrix.det_transpose]
  refine mul_ne_zero (Finset.prod_ne_zero_iff.2 fun i _ => ?_)
    (det_updateColumn_single_ne_zero _ k hM (det_IndexToPhysicalPointMatrix f.output hsp hdir))
  by_cases hi : i = k
  · simp [hi]
  · rw [if_neg hi]
    exact sub_ne_zero.2 (by exact_mod_cast hnd i hi)

/-- When axis `k` is the only degenerate axis and column `k` of `deltaMatrix`
is the unit vector of axis `k`, the estimate for an affine transform with
matrix `A` is `A` with its column `k` set to zero. -/
theorem jacMatrix_single_thin_axis {N : ℕ} (env : Externals N) (f : Filter N)
    (transform : TransformType N) (A : MatrixType N) (b : PointType N)
    (haff : ∀ p, transform.TransformPoint p = A.mulVec p + b) (idx : IndexType N) (k : Fin N)
    (hmul : env.vnl_matrix_inverse (deltaMatrix f idx) * deltaMatrix f idx = 1)
    (hk : posAfter f idx k k = posBef f idx k k)
    (hnd : ∀ i, i ≠ k → ¬ posAfter f idx i i = posBef f idx i i)
    (hcol : ∀ i, i ≠ k → deltaMatrix f idx i k = 0) :
    jacMatrix (env.vnl_matrix_inverse (deltaMatrix f idx)) (resDiff f transform idx)
      = Matrix.of fun j i => if i = k then 0 else A j i := by
  have hdiff : ∀ l j, resDiff f transform idx l j
      = (deltaMatrix f idx * A.transpose) l j - if l = k then A j k else 0 := by
    intro l j
    by_cases hl : l = k
    · subst hl
      rw [resDiff_apply_thin f transform idx l j hk, if_pos rfl, Matrix.mul_apply,
        Finset.sum_eq_single l]
      · rw [deltaMatrix_apply_thin f idx l l hk, if_pos rfl, Matrix.transpose_apply]
        ring
      · intro m _ hm
        rw [deltaMatrix_apply_thin f idx l m hk, if_neg hm, zero_mul]
      · simp
    · rw [resDiff_apply_affine f transform A b haff idx l j (hnd l hl), if_neg hl, sub_zero]
  have hinvk : ∀ i, env.vnl_matrix_inverse (deltaMatrix f idx) i k = if i = k then 1 else 0 := by
    intro i
    have h := congrFun (congrFun hmul i) k
    rw [Matrix.mul_apply, Finset.sum_eq_single k
      (fun l _ hl => by rw [hcol l hl, mul_zero]) (by simp),
      deltaMatrix_apply_thin f idx k k hk, if_pos rfl, mul_one, Matrix.one_apply] at h
    exact h
  ext j i
  have hsum : ∑ l, env.vnl_matrix_inverse (deltaMatrix f idx) i l * resDiff f transform idx l j
      = (env.vnl_matrix_inverse (deltaMatrix f idx) * (deltaMatrix f idx * A.transpose)) i j
        - env.vnl_matrix_inverse (deltaMatrix f idx) i k * A j k := by
    have hlast : ∑ l, env.vnl_matrix_inverse (deltaMatrix f idx) i l *
        (if l = k then A j k else 0)
        = env.vnl_matrix_inverse (deltaMatrix f idx) i k * A j k := by
      rw [Finset.sum_eq_single k (fun l _ hl => by rw [if_neg hl, mul_zero]) (by simp),
        if_pos rfl]
    rw [Matrix.mul_apply, ← hlast, ← Finset.sum_sub_distrib]
    exact Finset.sum_congr rfl fun l _ => by rw [hdiff l j, mul_sub]
  simp only [jacMatrix, Matrix.of_apply]
  rw [hsum, ← Matrix.mul_assoc, hmul, Matrix.one_mul, Matrix.transpose_apply, hinvk i]
  by_cases hi : i = k
  · subst hi
    simp
  · simp [hi]

/-- When the definition domain is one voxel thick along axis 2 and at least two
voxels thick along every other axis, and row 2 of the output direction is zero
off the diagonal, the matrix returned for an affine transform with matrix `A`,
at any voxel of the domain, is `A` with column 2 replaced by the unit vector of
axis 2. -/
theorem ComputeLocalJacobianMatrix_thin_slice {N : ℕ} (env : Externals N) (f : Filter N)
    (transform : TransformType N) (A : MatrixType N) (b : PointType N) (idx : IndexType N)
    (h2 : 2 < N) (hT : f.m_Transform = some transform)
    (haff : ∀ p, transform.TransformPoint p = A.mulVec p + b)
    (hsp : ∀ i, 0 < f.output.spacing i) (hdir : f.output.direction.det ≠ 0)
    (hinv : InverseContract env.vnl_matrix_inverse)
    (hin : ∀ i, f.m_StartIndDef i ≤ idx i ∧ idx i < f.m_EndIndDef i)
    (hthin : f.m_EndIndDef ⟨2, h2⟩ - f.m_StartIndDef ⟨2, h2⟩ = 1)
    (hthick : ∀ i, i ≠ ⟨2, h2⟩ → f.m_StartIndDef i + 2 ≤ f.m_EndIndDef i)
    (hrow : ∀ i, i ≠ ⟨2, h2⟩ → f.output.direction ⟨2, h2⟩ i = 0) :
    ComputeLocalJacobianMatrix env f idx
      = some (Matrix.of fun j i =>
          if i = ⟨2, h2⟩ then (if j = ⟨2, h2⟩ then 1 else 0) else A j i) := by
  have hk : posAfter f idx ⟨2, h2⟩ ⟨2, h2⟩ = posBef f idx ⟨2, h2⟩ ⟨2, h2⟩ := by
    rw [posAfter_apply_self, posBef_apply_self]
    have := hin ⟨2, h2⟩
    omega
  have hnd : ∀ i, i ≠ ⟨2, h2⟩ → ¬ posAfter f idx i i = posBef f idx i i := by
    intro i hi
    rw [posAfter_apply_self, posBef_apply_self]
    have h1 := hin i
    have h3 := hthick i hi
    omega
  have hM : ∀ i, i ≠ ⟨2, h2⟩ → IndexToPhysicalPointMatrix f.output ⟨2, h2⟩ i = 0 := by
    intro i hi
    rw [IndexToPhysicalPointMatrix_apply, hrow i hi, zero_mul]
  have hmul := hinv _ (det_deltaMatrix_single_thin_axis f idx ⟨2, h2⟩ hsp hdir hk hnd hM)
  have hcol : ∀ i, i ≠ ⟨2, h2⟩ → deltaMatrix f idx i ⟨2, h2⟩ = 0 := by
    intro i hi
    rw [deltaMatrix_apply_step f idx i _ (hnd i hi), hM i hi, zero_mul]
  have hfix : f.m_StartIndDef ⟨2, h2⟩ = f.m_EndIndDef ⟨2, h2⟩ - 1 := by omega
  simp only [ComputeLocalJacobianMatrix, hT, h2, Option.bind_eq_bind, Option.some_bind,
    Option.pure_def, dite_true]
  rw [if_pos hfix, jacMatrix_single_thin_axis env f transform A b haff idx ⟨2, h2⟩ hmul hk hnd
    hcol]
  congr 1
  ext j i
  by_cases hj : j = ⟨2, h2⟩
  · subst hj
    by_cases hi : i = ⟨2, h2⟩
    · subst hi
      simp
    · simp [Function.update, hi]
  · simp [Function.update, hj]

/-- The finite-strain rotation of a diagonal matrix with positive entries is
the identity. -/
theorem finite_strain_rotation_of_posdiag {N : ℕ} (d : Fin N → ℚ) (hd : ∀ i, 0 < d i)
    (R : MatrixType N) (h : IsFiniteStrainRotation (Matrix.diagonal d) R) : R = 1 := by
  obtain ⟨S, hJ, hR, hsym, hpsd⟩ := h
  have hR2 : R * R.transpose = 1 := Matrix.mul_eq_one_comm.1 hR
  have hS : S = R.transpose * Matrix.diagonal d := by
    rw [hJ, ← Matrix.mul_assoc, hR, Matrix.one_mul]
  have hSS : S * S = Matrix.diagonal d * Matrix.diagonal d := by
    have h1 : S.transpose * S = Matrix.diagonal d * Matrix.diagonal d := by
      rw [hS, Matrix.transpose_mul, Matrix.transpose_transpose, Matrix.diagonal_transpose,
        Matrix.mul_assoc, ← Matrix.mul_assoc R, hR2, Matrix.one_mul]
    rwa [hsym] at h1
  have hcomm : S * Matrix.diagonal d = Matrix.diagonal d * S := by
    ext i j
    have h3 : (S * (Matrix.diagonal d * Matrix.diagonal d)) i j
        = ((Matrix.diagonal d * Matrix.diagonal d) * S) i j := by
      rw [← hSS, Matrix.mul_assoc]
    rw [Matrix.diagonal_mul_diagonal, Matrix.mul_diagonal, Matrix.diagonal_mul] at h3
    rw [Matrix.mul_diagonal, Matrix.diagonal_mul]
    by_cases hs : S i j = 0
    · simp [hs]
    · have h4 : S i j * ((d j - d i) * (d j + d i)) = 0 := by
        have : S i j * ((d j - d i) * (d j + d i)) = S i j * (d j * d j) - d i * d i * S i j := by
          ring
        rw [this, h3, sub_self]
      have h5 : d j + d i ≠ 0 := ne_of_gt (add_pos (hd j) (hd i))
      have h6 : d j - d i = 0 := by
        rcases mul_eq_zero.1 h4 with h | h
        · exact absurd h hs
        · rcases mul_eq_zero.1 h with h | h
          · exact h
          · exact absurd h h5
      rw [sub_eq_zero.1 h6]
      ring
  have hzero : (S + Matrix.diagonal d) * (S - Matrix.diagonal d) = 0 := by
    rw [Matrix.add_mul, Matrix.mul_sub, Matrix.mul_sub, hSS, hcomm]
    abel
  have hSD : ∀ x : Fin N → ℚ, (S - Matrix.diagonal d).mulVec x = 0 := by
    intro x
    have hw : (S + Matrix.diagonal d).mulVec ((S - Matrix.diagonal d).mulVec x) = 0 := by
      rw [Matrix.mulVec_mulVec, hzero, Matrix.zero_mulVec]
    have h1 : Matrix.dotProduct ((S - Matrix.diagonal d).mulVec x)
        ((S + Matrix.diagonal d).mulVec ((S - Matrix.diagonal d).mulVec x)) = 0 := by
      rw [hw, Matrix.dotProduct_zero]
    rw [Matrix.add_mulVec, Matrix.dotProduct_add] at h1
    have h2 := hpsd ((S - Matrix.diagonal d).mulVec x)
    have h3 : ∀ i ∈ Finset.univ, 0 ≤ (S - Matrix.diagonal d).mulVec x i *
        (Matrix.diagonal d).mulVec ((S - Matrix.diagonal d).mulVec x) i := by
      intro i _
      rw [Matrix.mulVec_diagonal]
      have := mul_nonneg (le_of_lt (hd i)) (mul_self_nonneg ((S - Matrix.diagonal d).mulVec x i))
      nlinarith
    have h4 : Matrix.dotProduct ((S - Matrix.diagonal d).mulVec x)
        ((Matrix.diagonal d).mulVec ((S - Matrix.diagonal d).mulVec x)) = 0 :=
      le_antisymm (by linarith) (Finset.sum_nonneg h3)
    funext i
    have h5 := (Finset.sum_eq_zero_iff_of_nonneg h3).1 h4 i (Finset.mem_univ i)
    rw [Matrix.mulVec_diagonal] at h5
    have h6 : (S - Matrix.diagonal d).mulVec x i * (S - Matrix.diagonal d).mulVec x i = 0 := by
      have hdi := hd i
      have : d i * ((S - Matrix.diagonal d).mulVec x i * (S - Matrix.diagonal d).mulVec x i)
          = 0 := by
        rw [← h5]
        ring
      rcases mul_eq_zero.1 this with h | h
      · exact absurd h (ne_of_gt hdi)
      · exact h
    exact mul_self_eq_zero.1 h6
  have hSeq : S = Matrix.diagonal d := by
    ext i j
    have := congrFun (hSD (Pi.single j 1)) i
    rw [Matrix.mulVec_single_one] at this
    exact sub_eq_zero.1 this
  have hDinv : Matrix.diagonal d * Matrix.diagonal (fun i => (d i)⁻¹) = 1 := by
    rw [Matrix.diagonal_mul_diagonal]
    have : (fun i => d i * (d i)⁻¹) = fun _ => (1 : ℚ) :=
      funext fun i => mul_inv_cancel₀ (ne_of_gt (hd i))
    rw [this, Matrix.diagonal_one]
  calc R = R * (Matrix.diagonal d * Matrix.diagonal (fun i => (d i)⁻¹)) := by
        rw [hDinv, Matrix.mul_one]
    _ = (R * S) * Matrix.diagonal (fun i => (d i)⁻¹) := by rw [hSeq, Matrix.mul_assoc]
    _ = 1 := by rw [← hJ, hDinv]

/-! ## The degenerate last axis of the input on the linear path -/

/-- When the last dimension of the input has size at most one, the index
tested on the linear path has last component zero and is otherwise the mapped
index. -/
theorem linearMappedIndex_of_useless {N : ℕ} (f : Filter N) (transform : TransformType N)
    (h : 0 < N) (idx : IndexType N)
    (hsize : f.input.largestPossibleRegion.size (lastAxis h) ≤ 1) :
    linearMappedIndex f transform h idx (lastAxis h) = 0 ∧
    ∀ c, c ≠ lastAxis h →
      linearMappedIndex f transform h idx c = mappedIndex f transform idx c := by
  rw [linearMappedIndex, if_pos hsize]
  exact ⟨by simp, fun c hc => by simp [Function.update, hc]⟩

/-- The example interpolator tests every axis with `insideAlongAxis`. -/
theorem boxInterpolator_isInside_iff {N : ℕ} (image : ImageType N)
    (cIdx : ContinuousIndexType N) :
    (boxInterpolator : InterpolatorType N).IsInsideBuffer image cIdx = true ↔
      ∀ i, insideAlongAxis image cIdx i := by
  simp [boxInterpolator, insideAlongAxis]

/-- The scaling by `s` is the affine transform of matrix `s I` without
translation. -/
theorem scaling_affine {N : ℕ} (transform : TransformType N) (s : ℚ)
    (h : ∀ p, transform.TransformPoint p = s • p) (p : PointType N) :
    transform.TransformPoint p = (s • (1 : MatrixType N)).mulVec p + 0 := by
  rw [h, Matrix.smul_mulVec_assoc, Matrix.one_mulVec, add_zero]

/-- The matrix `diag(2,2,1)` is positive definite. -/
theorem posdef_diag_two_two_one (x : Fin 3 → ℚ) (hx : x ≠ 0) :
    0 < Matrix.dotProduct x ((Matrix.diagonal ![2, 2, 1] : MatrixType 3).mulVec x) := by
  have hne : x 0 ≠ 0 ∨ x 1 ≠ 0 ∨ x 2 ≠ 0 := by
    by_contra h
    push_neg at h
    apply hx
    funext i
    fin_cases i
    · exact h.1
    · exact h.2.1
    · exact h.2.2
  have hsum : Matrix.dotProduct x ((Matrix.diagonal ![2, 2, 1] : MatrixType 3).mulVec x)
      = 2 * (x 0 * x 0) + 2 * (x 1 * x 1) + x 2 * x 2 := by
    simp [Matrix.dotProduct, Matrix.mulVec_diagonal, Fin.sum_univ_three]
    ring
  rw [hsum]
  have h0 := mul_self_nonneg (x 0)
  have h1 := mul_self_nonneg (x 1)
  have h2 := mul_self_nonneg (x 2)
  rcases hne with h | h | h
  · have := mul_self_pos.2 h
    linarith
  · have := mul_self_pos.2 h
    linarith
  · have := mul_self_pos.2 h
    linarith

/-! ## Identity transform on the nonlinear path -/

/-- One iteration of the nonlinear loop at a voxel whose interpolated value is
zero: the value is written as it is and no Jacobian is computed. -/
theorem NonLinearVoxel_of_zero {N : ℕ} (env : Externals N) (f : Filter N)
    (threadId : ThreadIdType) (transform : TransformType N)
    (interpolator : InterpolatorType N) (image : ImageType N)
    (hT : f.m_Transform = some transform) (hI : f.m_Interpolator = some interpolator)
    (himg : interpolator.inputImage = some image) (idx : IndexType N)
    (hz : isZero (interpolatedValue f interpolator image (mappedIndex f transform idx)) = true) :
    NonLinearVoxel env f threadId idx
      = some (interpolatedValue f interpolator image (mappedIndex f transform idx)) := by
  simp only [interpolatedValue, mappedIndex] at hz
  simp only [NonLinearVoxel, hT, hI, himg, interpolatedValue, mappedIndex, Option.bind_eq_bind,
    Option.some_bind, Option.pure_def, hz, Bool.not_true, Bool.false_eq_true, if_false]

/-- The local Jacobian of the identity transform is the identity matrix at
every voxel of a definition domain that is at least two voxels thick along
every axis other than axis 2 and, along axis 2, either at least two voxels
thick or one voxel thick with row 2 of the output direction zero off the
diagonal. -/
theorem ComputeLocalJacobianMatrix_identity {N : ℕ} (env : Externals N) (f : Filter N)
    (transform : TransformType N) (idx : IndexType N) (h2 : 2 < N)
    (hT : f.m_Transform = some transform) (hid : ∀ p, transform.TransformPoint p = p)
    (hsp : ∀ i, 0 < f.output.spacing i) (hdir : f.output.direction.det ≠ 0)
    (hinv : InverseContract env.vnl_matrix_inverse)
    (hin : ∀ i, f.m_StartIndDef i ≤ idx i ∧ idx i < f.m_EndIndDef i)
    (hthick : ∀ i : Fin N, i.val ≠ 2 → f.m_StartIndDef i + 2 ≤ f.m_EndIndDef i)
    (hslice : (∀ i : Fin N, i.val = 2 → f.m_StartIndDef i + 2 ≤ f.m_EndIndDef i) ∨
      ∀ i j : Fin N, i.val = 2 → j.val ≠ 2 → f.output.direction i j = 0) :
    ComputeLocalJacobianMatrix env f idx = some 1 := by
  have haff : ∀ p, transform.TransformPoint p = (1 : MatrixType N).mulVec p + 0 := fun p => by
    rw [hid, Matrix.one_mulVec, add_zero]
  have hne : ∀ i : Fin N, i ≠ ⟨2, h2⟩ → i.val ≠ 2 := fun i hi hv => hi (Fin.ext hv)
  by_cases hth : f.m_StartIndDef ⟨2, h2⟩ + 2 ≤ f.m_EndIndDef ⟨2, h2⟩
  · refine ComputeLocalJacobianMatrix_thick env f transform 1 0 idx h2 hT haff hsp hdir hinv hin
      fun i => ?_
    by_cases hi : i = ⟨2, h2⟩
    · subst hi
      exact hth
    · exact hthick i (hne i hi)
  · have hrow : ∀ i j : Fin N, i.val = 2 → j.val ≠ 2 → f.output.direction i j = 0 := by
      rcases hslice with h | h
      · exact absurd (h ⟨2, h2⟩ rfl) hth
      · exact h
    have hthin : f.m_EndIndDef ⟨2, h2⟩ - f.m_StartIndDef ⟨2, h2⟩ = 1 := by
      have := hin ⟨2, h2⟩
      omega
    rw [ComputeLocalJacobianMatrix_thin_slice env f transform 1 0 idx h2 hT haff hsp hdir hinv
      hin hthin (fun i hi => hthick i (hne i hi)) (fun i hi => hrow ⟨2, h2⟩ i rfl (hne i hi))]
    congr 1
    ext j i
    by_cases hi : i = ⟨2, h2⟩
    · subst hi
      simp [Matrix.one_apply]
    · simp [hi]

/-! ## Identity transform on a tilted single slice -/

/-- The oblique direction is non-singular. -/
theorem obliqueDirection_det : obliqueDirection.det ≠ 0 := by
  simp [obliqueDirection, Matrix.det_fin_three]
  norm_num

/-- The filter with the identity transform over the tilted single slice is in
the setting of identity transform invariance. -/
theorem obliqueIdentityFilter_identitySetting :
    IdentitySetting rowLengthExternals obliqueIdentityFilter (identityTransform 3 false)
      { boxInterpolator with inputImage := some (obliqueImage fun _ => [1]) } := by
  refine ⟨rfl, fun _ => rfl, fun h => ?_, rfl, rfl, rfl, rfl, rfl, rfl, fun i => ?_,
    obliqueDirection_det, fun idx hidx => ⟨?_, ?_⟩, fun v _ => ?_, fun h => ?_,
    matrixInverse_contract, fun _ _ => ⟨rfl, rfl⟩⟩
  · exact absurd h (by decide)
  · simp [obliqueIdentityFilter, obliqueImage, unitImage]
  · exact boxInterpolator_inside (obliqueImage fun _ => [1]) idx hidx
  · exact boxInterpolator_evaluate (obliqueImage fun _ => [1]) idx
  · simp [rowLengthExternals, Matrix.one_apply]
  · exact absurd h (by decide)

/-- For the identity transform over the tilted single slice, the local
Jacobian at the voxel `(0,0,0)` is a shear, not the identity. -/
theorem obliqueIdentityFilter_jacobian :
    ComputeLocalJacobianMatrix rowLengthExternals obliqueIdentityFilter (fun _ => 0)
      = some obliqueShear := by
  have hthin : posAfter obliqueIdentityFilter (fun _ => 0) 2 2
      = posBef obliqueIdentityFilter (fun _ => 0) 2 2 := by decide
  have hstep : ∀ i : Fin 3, i ≠ 2 →
      ¬ posAfter obliqueIdentityFilter (fun _ => 0) i i
        = posBef obliqueIdentityFilter (fun _ => 0) i i := by decide
  have hstepval : ∀ i : Fin 3, i ≠ 2 →
      ((posAfter obliqueIdentityFilter (fun _ => 0) i i : ℤ) : ℚ)
        - ((posBef obliqueIdentityFilter (fun _ => 0) i i : ℤ) : ℚ) = 1 := by
    intro i hi
    have h1 : posAfter obliqueIdentityFilter (fun _ => 0) i i = 1 := by
      revert i
      decide
    have h0 : posBef obliqueIdentityFilter (fun _ => 0) i i = 0 := by
      revert i
      decide
    rw [h1, h0]
    norm_num
  have hM : ∀ r c, IndexToPhysicalPointMatrix obliqueIdentityFilter.output r c
      = obliqueDirection r c := by
    intro r c
    rw [IndexToPhysicalPointMatrix_apply]
    simp [obliqueIdentityFilter, obliqueImage, unitImage]
  have hdelta : deltaMatrix obliqueIdentityFilter (fun _ => 0) = obliqueDelta := by
    ext i j
    by_cases hi : i = 2
    · subst hi
      rw [deltaMatrix_apply_thin _ _ _ _ hthin]
      fin_cases j <;> simp [obliqueDelta, Matrix.vecHead, Matrix.vecTail]
    · rw [deltaMatrix_apply_step _ _ _ _ (hstep i hi), hstepval i hi, hM, mul_one]
      fin_cases i <;> fin_cases j <;>
        simp [obliqueDelta, obliqueDirection, Matrix.vecHead, Matrix.vecTail] at hi ⊢
  have hdiff : ∀ l j, resDiff obliqueIdentityFilter (identityTransform 3 false) (fun _ => 0) l j
      = if l = 2 then 0 else obliqueDelta l j := by
    intro l j
    by_cases hl : l = 2
    · subst hl
      rw [resDiff_apply_thin _ _ _ _ _ hthin, if_pos rfl]
    · rw [resDiff_apply_affine _ _ (1 : MatrixType 3) 0
        (fun p => by
          show p = (1 : MatrixType 3).mulVec p + 0
          rw [Matrix.one_mulVec, add_zero]) _ _ _ (hstep l hl),
        if_neg hl, hdelta, Matrix.transpose_one, Matrix.mul_one]
  have hdet : obliqueDelta.det ≠ 0 := by
    simp [obliqueDelta, Matrix.det_fin_three]
  have hinv : rowLengthExternals.vnl_matrix_inverse obliqueDelta = obliqueDeltaInverse := by
    have h1 : matrixInverse obliqueDelta * obliqueDelta = 1 := matrixInverse_mul _ hdet
    have h2 : obliqueDelta * obliqueDeltaInverse = 1 := by
      ext i j
      fin_cases i <;> fin_cases j <;>
        simp [obliqueDelta, obliqueDeltaInverse, Matrix.mul_apply, Fin.sum_univ_three,
          Matrix.one_apply, Matrix.vecHead, Matrix.vecTail]
      all_goals norm_num
    show matrixInverse obliqueDelta = obliqueDeltaInverse
    calc matrixInverse obliqueDelta
        = matrixInverse obliqueDelta * (obliqueDelta * obliqueDeltaInverse) := by
          rw [h2, Matrix.mul_one]
      _ = obliqueDeltaInverse := by rw [← Matrix.mul_assoc, h1, Matrix.one_mul]
  have hjac : ∀ j i, jacMatrix (rowLengthExternals.vnl_matrix_inverse
      (deltaMatrix obliqueIdentityFilter (fun _ => 0)))
      (resDiff obliqueIdentityFilter (identityTransform 3 false) (fun _ => 0)) j i
      = obliqueDeltaInverse i 0 * obliqueDelta 0 j + obliqueDeltaInverse i 1 * obliqueDelta 1 j := by
    intro j i
    rw [hdelta, hinv]
    simp only [jacMatrix, Matrix.of_apply, hdiff, Fin.sum_univ_three]
    simp
  have hfix : obliqueIdentityFilter.m_StartIndDef ⟨2, by decide⟩
      = obliqueIdentityFilter.m_EndIndDef ⟨2, by decide⟩ - 1 := by decide
  have hT : obliqueIdentityFilter.m_Transform = some (identityTransform 3 false) := rfl
  have h2 : 2 < 3 := by decide
  simp only [ComputeLocalJacobianMatrix, hT, h2, Option.bind_eq_bind, Option.some_bind,
    Option.pure_def, dite_true]
  rw [if_pos hfix]
  congr 1
  ext j i
  fin_cases j <;> fin_cases i <;>
    simp [Function.update, hjac, obliqueShear, obliqueDelta, obliqueDeltaInverse,
      Matrix.vecHead, Matrix.vecTail]

/-! ## Claims -/

/-- C1. For every output index of the region processed by
`LinearThreadedGenerateData` or `NonLinearThreadedGenerateData`, the value
written is the following. Let `cIdx` be the continuous index of the input grid
onto which the output index is mapped (with its last component set to zero, on
the linear path, when the last dimension of the input has size at most one) and
`v` the interpolator value at `cIdx` if `cIdx` is inside the input buffer, the
zero model otherwise. The value written is `v` when `isZero v`, and the
reorientation of `v` otherwise, by the rotation extractor applied to the matrix
of the transform (linear path) or to the local Jacobian at the index (nonlinear
path, where the grid has at least three axes). -/
theorem voxel_value {N : ℕ} (env : Externals N) (f : Filter N) (region : ImageRegion N)
    (threadId : ThreadIdType) (h0 : 0 < N) (transform : TransformType N)
    (interpolator : InterpolatorType N) (image : ImageType N)
    (hT : f.m_Transform = some transform) (hI : f.m_Interpolator = some interpolator)
    (himg : interpolator.inputImage = some image) :
    (∀ A, transform.GetMatrix = some A →
      ∃ g, LinearThreadedGenerateData env f region threadId = some g ∧
        ∀ idx, region.IsInside idx →
          g.output.buffer idx = writtenValue env
            (interpolatedValue f interpolator image (linearMappedIndex f transform h0 idx))
            (ComputeRotationParametersFromReorientationMatrix env f A).2 threadId) ∧
    (2 < N →
      ∃ g, NonLinearThreadedGenerateData env f region threadId = some g ∧
        ∀ idx, region.IsInside idx →
          ∃ J, ComputeLocalJacobianMatrix env f idx = some J ∧
            g.output.buffer idx = writtenValue env
              (interpolatedValue f interpolator image (mappedIndex f transform idx))
              (ComputeRotationParametersFromReorientationMatrix env f J).2 threadId) := by
  constructor
  · intro A hA
    obtain ⟨g, hg, _, hin, _⟩ :=
      linear_spec env f region threadId h0 transform interpolator image A hT hI himg hA
    exact ⟨g, hg, hin⟩
  · intro h2
    obtain ⟨g, hg, _, hin, _⟩ :=
      nonlinear_spec env f region threadId h2 transform interpolator image hT hI himg
    exact ⟨g, hg, hin⟩

/-- Witness of C1: the identity transform on a `3 x 3 x 3` unit grid, on both
paths. -/
theorem voxel_value_witness :
    (∃ g, LinearThreadedGenerateData (exampleExternals 3)
        (exampleFilter (identityTransform 3 true) true false (cubeRegion 3 0 3) (cubeRegion 3 0 3))
        (cubeRegion 3 0 3) 0 = some g ∧ g.output.buffer (fun _ => 1) = [1]) ∧
    (∃ g, NonLinearThreadedGenerateData (exampleExternals 3)
        (exampleFilter (identityTransform 3 true) false false (cubeRegion 3 0 3)
          (cubeRegion 3 0 3))
        (cubeRegion 3 0 3) 0 = some g) := by
  constructor
  · obtain ⟨g, hg, hv⟩ := (voxel_value (exampleExternals 3)
      (exampleFilter (identityTransform 3 true) true false (cubeRegion 3 0 3) (cubeRegion 3 0 3))
      (cubeRegion 3 0 3) 0 (by decide) (identityTransform 3 true) _ _ rfl rfl rfl).1 1 rfl
    refine ⟨g, hg, ?_⟩
    rw [hv (fun _ => 1) (by intro i; simp [cubeRegion])]
    have hm : linearMappedIndex
        (exampleFilter (identityTransform 3 true) true false (cubeRegion 3 0 3) (cubeRegion 3 0 3))
        (identityTransform 3 true) (by decide) (fun _ => 1) = fun i => (((fun _ => 1) : IndexType 3) i : ℚ) := by
      rw [linearMappedIndex, if_neg (by simp [exampleFilter, unitImage, cubeRegion]),
        exampleFilter_mappedIndex]
    rw [hm, exampleFilter_value _ _ _ _ _ _ (by intro i; simp [cubeRegion])]
    simp [writtenValue, isZero, exampleExternals, ComputeRotationParametersFromReorientationMatrix,
      exampleFilter]
  · obtain ⟨g, hg, _⟩ := (voxel_value (exampleExternals 3)
      (exampleFilter (identityTransform 3 true) false false (cubeRegion 3 0 3) (cubeRegion 3 0 3))
      (cubeRegion 3 0 3) 0 (by decide) (identityTransform 3 true) _ _ rfl rfl rfl).2 (by decide)
    exact ⟨g, hg⟩

/-- C2. Zero-propagation: on both paths, an output voxel of the processed
region whose continuous index, as tested by the driver, is not inside the input
buffer receives exactly the zero model produced by `InitializeZeroPixel`; no
reorientation is applied to it. -/
theorem zero_propagation {N : ℕ} (env : Externals N) (f : Filter N) (region : ImageRegion N)
    (threadId : ThreadIdType) (h0 : 0 < N) (transform : TransformType N)
    (interpolator : InterpolatorType N) (image : ImageType N)
    (hT : f.m_Transform = some transform) (hI : f.m_Interpolator = some interpolator)
    (himg : interpolator.inputImage = some image) :
    (∀ A, transform.GetMatrix = some A →
      ∃ g, LinearThreadedGenerateData env f region threadId = some g ∧
        ∀ idx, region.IsInside idx →
          interpolator.IsInsideBuffer image (linearMappedIndex f transform h0 idx) = false →
          g.output.buffer idx = InitializeZeroPixel f) ∧
    (2 < N →
      ∃ g, NonLinearThreadedGenerateData env f region threadId = some g ∧
        ∀ idx, region.IsInside idx →
          interpolator.IsInsideBuffer image (mappedIndex f transform idx) = false →
          g.output.buffer idx = InitializeZeroPixel f) := by
  constructor
  · intro A hA
    obtain ⟨g, hg, _, hin, _⟩ :=
      linear_spec env f region threadId h0 transform interpolator image A hT hI himg hA
    refine ⟨g, hg, fun idx hidx hout => ?_⟩
    rw [hin idx hidx, interpolatedValue, hout]
    exact writtenValue_zero env f _ threadId
  · intro h2
    obtain ⟨g, hg, _, hin, _⟩ :=
      nonlinear_spec env f region threadId h2 transform interpolator image hT hI himg
    refine ⟨g, hg, fun idx hidx hout => ?_⟩
    obtain ⟨J, _, hval⟩ := hin idx hidx
    rw [hval, interpolatedValue, hout]
    exact writtenValue_zero env f _ threadId

/-- Witness of C2: the identity transform from a `2 x 2 x 2` input onto a
`3 x 3 x 3` output grid; the output voxel `(2,2,2)` maps outside the input and
receives the zero model `[0]` on both paths. -/
theorem zero_propagation_witness :
    (∃ g, LinearThreadedGenerateData (exampleExternals 3)
        (exampleFilter (identityTransform 3 true) true false (cubeRegion 3 0 2) (cubeRegion 3 0 3))
        (cubeRegion 3 0 3) 0 = some g ∧ g.output.buffer (fun _ => 2) = [0]) ∧
    (∃ g, NonLinearThreadedGenerateData (exampleExternals 3)
        (exampleFilter (identityTransform 3 false) false false (cubeRegion 3 0 2)
          (cubeRegion 3 0 3))
        (cubeRegion 3 0 3) 0 = some g ∧ g.output.buffer (fun _ => 2) = [0]) := by
  constructor
  · obtain ⟨g, hg, hv⟩ := (zero_propagation (exampleExternals 3)
      (exampleFilter (identityTransform 3 true) true false (cubeRegion 3 0 2) (cubeRegion 3 0 3))
      (cubeRegion 3 0 3) 0 (by decide) (identityTransform 3 true) _ _ rfl rfl rfl).1 1 rfl
    refine ⟨g, hg, ?_⟩
    rw [hv (fun _ => 2) (by intro i; simp [cubeRegion])]
    · simp [InitializeZeroPixel, GetOutputVectorLength, exampleFilter, unitImage]
    · rw [linearMappedIndex, if_neg (by simp [exampleFilter, unitImage, cubeRegion]),
        exampleFilter_mappedIndex]
      simp only [boxInterpolator, decide_eq_false_iff_not, not_forall]
      refine ⟨0, ?_⟩
      simp [unitImage, cubeRegion]
  · obtain ⟨g, hg, hv⟩ := (zero_propagation (exampleExternals 3)
      (exampleFilter (identityTransform 3 false) false false (cubeRegion 3 0 2)
        (cubeRegion 3 0 3))
      (cubeRegion 3 0 3) 0 (by decide) (identityTransform 3 false) _ _ rfl rfl rfl).2
      (by decide)
    refine ⟨g, hg, ?_⟩
    rw [hv (fun _ => 2) (by intro i; simp [cubeRegion])]
    · simp [InitializeZeroPixel, GetOutputVectorLength, exampleFilter, unitImage]
    · rw [exampleFilter_mappedIndex]
      simp only [boxInterpolator, decide_eq_false_iff_not, not_forall]
      refine ⟨0, ?_⟩
      simp [unitImage, cubeRegion]

/-- Counterexample to C3 as stated. The three filters are in the setting of
the claim (identity transform, output geometry identical to the input geometry,
interpolator exact at grid indices, reorientation by the identity returning
its argument) and each writes, at a voxel of the output region, a value other
than the input value `[1]` of that voxel. On the nonlinear path, over a region
one voxel thick along the first axis, the local Jacobian is singular instead
of the identity. On the linear path, over a single slice whose region starts at
index 5 along the last axis, the last component of the continuous index is
replaced by zero and falls outside the buffer. On the nonlinear path, over a
single slice whose direction is tilted, the local Jacobian is a shear instead
of the identity. -/
theorem identity_invariance_counterexample :
    (IdentitySetting (exampleExternals 3)
        (exampleFilter (identityTransform 3 false) false false thinFirstAxisRegion
          thinFirstAxisRegion)
        (identityTransform 3 false)
        { boxInterpolator with inputImage := some (unitImage thinFirstAxisRegion fun _ => [1]) } ∧
      thinFirstAxisRegion.IsInside (fun _ => 0) ∧
      ∃ g, ThreadedGenerateData (exampleExternals 3)
          (exampleFilter (identityTransform 3 false) false false thinFirstAxisRegion
            thinFirstAxisRegion) thinFirstAxisRegion 0 = some g ∧
        g.output.buffer (fun _ => 0) = [0] ∧
        (unitImage thinFirstAxisRegion fun _ => [1]).buffer (fun _ => 0) = [1]) ∧
    (IdentitySetting (exampleExternals 3)
        (exampleFilter (identityTransform 3 true) true false shiftedSliceRegion
          shiftedSliceRegion)
        (identityTransform 3 true)
        { boxInterpolator with inputImage := some (unitImage shiftedSliceRegion fun _ => [1]) } ∧
      shiftedSliceRegion.IsInside ![0, 0, 5] ∧
      ∃ g, ThreadedGenerateData (exampleExternals 3)
          (exampleFilter (identityTransform 3 true) true false shiftedSliceRegion
            shiftedSliceRegion) shiftedSliceRegion 0 = some g ∧
        g.output.buffer ![0, 0, 5] = [0] ∧
        (unitImage shiftedSliceRegion fun _ => [1]).buffer ![0, 0, 5] = [1]) ∧
    (IdentitySetting rowLengthExternals obliqueIdentityFilter (identityTransform 3 false)
        { boxInterpolator with inputImage := some (obliqueImage fun _ => [1]) } ∧
      sliceRegion.IsInside (fun _ => 0) ∧
      ∃ g, ThreadedGenerateData rowLengthExternals obliqueIdentityFilter sliceRegion 0
          = some g ∧
        g.output.buffer (fun _ => 0) = [25 / 9] ∧
        (obliqueImage fun _ => [1]).buffer (fun _ => 0) = [1]) := by
  refine ⟨?_, ?_, ?_⟩
  · have hins : thinFirstAxisRegion.IsInside (fun _ => 0) := by
      intro i
      fin_cases i <;> simp [thinFirstAxisRegion]
    refine ⟨exampleFilter_identitySetting 3 false false thinFirstAxisRegion, hins, ?_⟩
    obtain ⟨g, hg, _, hin, _⟩ := nonlinear_spec (exampleExternals 3)
      (exampleFilter (identityTransform 3 false) false false thinFirstAxisRegion
        thinFirstAxisRegion) thinFirstAxisRegion 0 (by decide) (identityTransform 3 false)
      _ _ rfl rfl rfl
    refine ⟨g, hg, ?_, rfl⟩
    obtain ⟨J, hJ, hwr⟩ := hin (fun _ => 0) hins
    rw [ComputeLocalJacobianMatrix_nofixup _ _ (identityTransform 3 false) _ (by decide) rfl
      (by decide)] at hJ
    have hdet : J.det = 0 := by
      rw [← Option.some.inj hJ]
      refine det_jacMatrix_of_zero_row _ _ 0 fun j => ?_
      have hdeg : posAfter (exampleFilter (identityTransform 3 false) false false
          thinFirstAxisRegion thinFirstAxisRegion) (fun _ => 0) 0 0
          = posBef (exampleFilter (identityTransform 3 false) false false
          thinFirstAxisRegion thinFirstAxisRegion) (fun _ => 0) 0 0 := by decide
      simp only [resDiff, Matrix.of_apply, hdeg, if_true]
    rw [hwr, exampleFilter_mappedIndex, exampleFilter_value _ _ _ _ _ _ hins]
    simp [writtenValue, isZero, exampleExternals,
      ComputeRotationParametersFromReorientationMatrix, exampleFilter, hdet]
  · have hins : shiftedSliceRegion.IsInside ![0, 0, 5] := by
      intro i
      simp [shiftedSliceRegion]
    refine ⟨exampleFilter_identitySetting 3 true false shiftedSliceRegion, hins, ?_⟩
    obtain ⟨g, hg, _, hin, _⟩ := linear_spec (exampleExternals 3)
      (exampleFilter (identityTransform 3 true) true false shiftedSliceRegion
        shiftedSliceRegion) shiftedSliceRegion 0 (by decide) (identityTransform 3 true)
      _ _ 1 rfl rfl rfl rfl
    refine ⟨g, hg, ?_, rfl⟩
    rw [hin _ hins, linearMappedIndex,
      if_pos (by simp [exampleFilter, unitImage, shiftedSliceRegion]), exampleFilter_mappedIndex]
    have hout : (boxInterpolator : InterpolatorType 3).IsInsideBuffer
        (unitImage shiftedSliceRegion fun _ => [1])
        (Function.update (fun i => ((![0, 0, 5] : IndexType 3) i : ℚ))
          (lastAxis (by decide)) 0) = false := by
      simp only [boxInterpolator, decide_eq_false_iff_not, not_forall]
      refine ⟨lastAxis (by decide), ?_⟩
      have h5 : (unitImage shiftedSliceRegion fun _ => [1]).bufferedRegion.index
          (lastAxis (by decide)) = 5 := by decide
      rw [Function.update_same, h5]
      norm_num
    have hI : ({ boxInterpolator with
        inputImage := some (unitImage shiftedSliceRegion fun _ => [1]) } :
          InterpolatorType 3).IsInsideBuffer = boxInterpolator.IsInsideBuffer := rfl
    rw [interpolatedValue, hI, hout]
    simp [writtenValue, isZero, InitializeZeroPixel, GetOutputVectorLength, exampleFilter,
      unitImage]
  · have hins : sliceRegion.IsInside (fun _ => 0) := by
      intro i
      fin_cases i <;> simp [sliceRegion]
    have hset := obliqueIdentityFilter_identitySetting
    refine ⟨hset, hins, ?_⟩
    obtain ⟨hT, hid, _, hI, himg, hspacing, horigin, hdirection, _, hsp, hdir, hexact, _⟩ :=
      hset
    obtain ⟨g, hg, _, hin, _⟩ := nonlinear_spec rowLengthExternals obliqueIdentityFilter
      sliceRegion 0 (by decide) (identityTransform 3 false) _ _ hT hI himg
    refine ⟨g, hg, ?_, rfl⟩
    obtain ⟨J, hJ, hwr⟩ := hin (fun _ => 0) hins
    rw [obliqueIdentityFilter_jacobian] at hJ
    obtain ⟨h1, h2⟩ := hexact (fun _ => 0) hins
    rw [hwr, mappedIndex_identity obliqueIdentityFilter (identityTransform 3 false) hid hspacing
      horigin hdirection hsp hdir, interpolatedValue, if_pos h1, h2, ← Option.some.inj hJ]
    have e0 : obliqueShear 2 0 = 0 := by simp [obliqueShear, Matrix.vecHead, Matrix.vecTail]
    have e1 : obliqueShear 2 1 = 4 / 3 := by simp [obliqueShear, Matrix.vecHead, Matrix.vecTail]
    have e2 : obliqueShear 2 2 = 1 := by simp [obliqueShear, Matrix.vecHead, Matrix.vecTail]
    have hv : obliqueIdentityFilter.input.buffer (fun _ => 0) = [1] := rfl
    have hfs : obliqueIdentityFilter.m_FiniteStrainReorientation = false := rfl
    simp only [hv, writtenValue, isZero, rowLengthExternals,
      ComputeRotationParametersFromReorientationMatrix, hfs]
    norm_num
    rw [e0, e1, e2]
    norm_num

/-- C3, amended. Identity transform invariance: in the setting of the claim
(identity transform, output geometry identical to the input geometry and well
formed, interpolator exact at the integer grid indices, reorientation by the
identity matrix returning its argument), the resampled output has at every
voxel of the output region exactly the model value of the input at that voxel,
provided that, at every voxel of the output region: on the linear path, the
last index of the voxel is zero when the last dimension of the input has size
at most one; on the nonlinear path, the input value at the voxel is zero, or
the grid has at least three axes and the output region has extent at least two
along every axis other than axis 2 and, along axis 2, either extent at least
two or a direction matrix whose row 2 is zero off the diagonal (a single slice
that is not tilted). -/
theorem identity_invariance {N : ℕ} (env : Externals N) (f : Filter N)
    (threadId : ThreadIdType) (h0 : 0 < N) (transform : TransformType N)
    (interpolator : InterpolatorType N) (hset : IdentitySetting env f transform interpolator)
    (hpath : ∀ idx, f.output.largestPossibleRegion.IsInside idx →
      if f.m_LinearTransform then
        f.input.largestPossibleRegion.size (lastAxis h0) ≤ 1 → idx (lastAxis h0) = 0
      else
        isZero (f.input.buffer idx) = true ∨
        (2 < N ∧
          (∀ i : Fin N, i.val ≠ 2 → 2 ≤ f.output.largestPossibleRegion.size i) ∧
          ((∀ i : Fin N, i.val = 2 → 2 ≤ f.output.largestPossibleRegion.size i) ∨
            ∀ i j : Fin N, i.val = 2 → j.val ≠ 2 → f.output.direction i j = 0))) :
    ∃ g, ThreadedGenerateData env f f.output.largestPossibleRegion threadId = some g ∧
      ∀ idx, f.output.largestPossibleRegion.IsInside idx →
        g.output.buffer idx = f.input.buffer idx := by
  obtain ⟨hT, hid, hmat, hI, himg, hspacing, horigin, hdirection, hregion, hsp, hdir, hexact,
    hreo, hrot, hinv, hdef⟩ := hset
  have hmap := mappedIndex_identity f transform hid hspacing horigin hdirection hsp hdir
  have hval : ∀ idx, f.output.largestPossibleRegion.IsInside idx →
      interpolatedValue f interpolator f.input (fun i => (idx i : ℚ)) = f.input.buffer idx := by
    intro idx hidx
    obtain ⟨h1, h2⟩ := hexact idx (hregion ▸ hidx)
    rw [interpolatedValue, if_pos h1, h2]
  cases hlin : f.m_LinearTransform with
  | true =>
    obtain ⟨g, hg, _, hin, _⟩ := linear_spec env f f.output.largestPossibleRegion threadId h0
      transform interpolator f.input 1 hT hI himg (hmat hlin)
    refine ⟨g, by simpa [ThreadedGenerateData, hlin] using hg, fun idx hidx => ?_⟩
    have hlmi : linearMappedIndex f transform h0 idx = fun i => (idx i : ℚ) := by
      rw [linearMappedIndex, hmap]
      split_ifs with hsize
      · have hp := hpath idx hidx
        rw [hlin] at hp
        simp only [if_true] at hp
        have hz : idx (lastAxis h0) = 0 := hp hsize
        funext c
        by_cases hc : c = lastAxis h0
        · subst hc
          simp [hz]
        · simp [Function.update, hc]
      · rfl
    rw [hin idx hidx, hlmi, hval idx hidx, rotation_of_identity env f hrot,
      writtenValue_identity env hreo]
  | false =>
    have hvoxel : ∀ idx ∈ f.output.largestPossibleRegion.indices,
        NonLinearVoxel env f threadId idx = some (f.input.buffer idx) := by
      intro idx hmem
      have hidx := (f.output.largestPossibleRegion.mem_indices idx).1 hmem
      have hp := hpath idx hidx
      rw [hlin] at hp
      simp only [Bool.false_eq_true, if_false] at hp
      rcases hp with hzero | ⟨h2, hthick, hslice⟩
      · have hz : isZero (interpolatedValue f interpolator f.input
            (mappedIndex f transform idx)) = true := by
          rw [hmap, hval idx hidx]
          exact hzero
        rw [NonLinearVoxel_of_zero env f threadId transform interpolator f.input hT hI himg idx
          hz, hmap, hval idx hidx]
      · have hJ1 : ComputeLocalJacobianMatrix env f idx = some 1 := by
          refine ComputeLocalJacobianMatrix_identity env f transform idx h2 hT hid
            (fun i => hspacing ▸ hsp i) (hdirection ▸ hdir) hinv (fun i => ?_) (fun i hi => ?_)
            ?_
          · obtain ⟨hs, he⟩ := hdef hlin i
            have := hidx i
            omega
          · obtain ⟨hs, he⟩ := hdef hlin i
            have := hthick i hi
            omega
          · rcases hslice with h | h
            · left
              intro i hi
              obtain ⟨hs, he⟩ := hdef hlin i
              have := h i hi
              omega
            · exact Or.inr h
        rw [NonLinearVoxel_eq env f threadId h2 transform interpolator f.input hT hI himg idx,
          hJ1, Option.getD_some, hmap, hval idx hidx, rotation_of_identity env f hrot,
          writtenValue_identity env hreo]
    obtain ⟨b, hb, hin, _⟩ := foldlM_update (NonLinearVoxel env f threadId) f.input.buffer
      f.output.largestPossibleRegion.indices f.output.buffer hvoxel
    refine ⟨{ f with output := { f.output with buffer := b } }, ?_, fun idx hidx => ?_⟩
    · simp only [ThreadedGenerateData, hlin, Bool.false_eq_true, if_false,
        NonLinearThreadedGenerateData, Option.bind_eq_bind, Option.pure_def]
      simp only [Option.bind_eq_bind, Option.pure_def] at hb
      rw [hb]
      simp
    · exact hin idx ((f.output.largestPossibleRegion.mem_indices idx).2 hidx)

/-- Witness of C3, amended: the identity transform on the unit `3 x 3 x 3`
grid, as a matrix transform with finite strain enabled and as a transform
without matrix, and, as a transform without matrix, on the single slice
`10 x 10 x 1` of a unit grid, which is not tilted. -/
theorem identity_invariance_witness :
    (∃ g, ThreadedGenerateData (exampleExternals 3)
        (exampleFilter (identityTransform 3 true) true true (cubeRegion 3 0 3) (cubeRegion 3 0 3))
        (cubeRegion 3 0 3) 0 = some g ∧ g.output.buffer (fun _ => 2) = [1]) ∧
    (∃ g, ThreadedGenerateData (exampleExternals 3)
        (exampleFilter (identityTransform 3 false) false false (cubeRegion 3 0 3)
          (cubeRegion 3 0 3))
        (cubeRegion 3 0 3) 0 = some g ∧ g.output.buffer (fun _ => 2) = [1]) ∧
    (∃ g, ThreadedGenerateData (exampleExternals 3)
        (exampleFilter (identityTransform 3 false) false false sliceRegion sliceRegion)
        sliceRegion 0 = some g ∧ g.output.buffer ![5, 5, 0] = [1]) := by
  refine ⟨?_, ?_, ?_⟩
  · obtain ⟨g, hg, hv⟩ := identity_invariance (exampleExternals 3)
      (exampleFilter (identityTransform 3 true) true true (cubeRegion 3 0 3) (cubeRegion 3 0 3))
      0 (by decide) (identityTransform 3 true) _
      (exampleFilter_identitySetting 3 true true (cubeRegion 3 0 3))
      (fun idx _ => by simp [exampleFilter, unitImage, cubeRegion])
    exact ⟨g, hg, hv (fun _ => 2) (by intro i; simp [exampleFilter, unitImage, cubeRegion])⟩
  · obtain ⟨g, hg, hv⟩ := identity_invariance (exampleExternals 3)
      (exampleFilter (identityTransform 3 false) false false (cubeRegion 3 0 3)
        (cubeRegion 3 0 3))
      0 (by decide) (identityTransform 3 false) _
      (exampleFilter_identitySetting 3 false false (cubeRegion 3 0 3))
      (fun idx _ => Or.inr ⟨by decide,
        fun i _ => by simp [exampleFilter, unitImage, cubeRegion],
        Or.inl fun i _ => by simp [exampleFilter, unitImage, cubeRegion]⟩)
    exact ⟨g, hg, hv (fun _ => 2) (by intro i; simp [exampleFilter, unitImage, cubeRegion])⟩
  · obtain ⟨g, hg, hv⟩ := identity_invariance (exampleExternals 3)
      (exampleFilter (identityTransform 3 false) false false sliceRegion sliceRegion)
      0 (by decide) (identityTransform 3 false) _
      (exampleFilter_identitySetting 3 false false sliceRegion)
      (fun idx _ => Or.inr ⟨by decide, by decide, Or.inr fun i j hi hj => by
        have hij : i ≠ j := fun e => hj (e ▸ hi)
        simp [exampleFilter, unitImage, Matrix.one_apply, hij]⟩)
    exact ⟨g, hg, hv ![5, 5, 0] (by
      intro i
      fin_cases i <;> simp [exampleFilter, unitImage, sliceRegion])⟩

/-- C4. Finite-difference consistency: for an affine transform `p ↦ A p + b`,
an output geometry with positive spacing and invertible direction, and a voxel
index strictly inside the definition domain on every axis, the matrix returned
by `ComputeLocalJacobianMatrix` is `A`, in exact arithmetic (the library inverse
being exact on non-singular matrices; the grid has at least three axes, the
source reading component 2 of the bounds). -/
theorem finite_difference_consistency {N : ℕ} (env : Externals N) (f : Filter N)
    (transform : TransformType N) (A : MatrixType N) (b : PointType N) (idx : IndexType N)
    (h2 : 2 < N) (hT : f.m_Transform = some transform)
    (haff : ∀ p, transform.TransformPoint p = A.mulVec p + b)
    (hsp : ∀ i, 0 < f.output.spacing i) (hdir : f.output.direction.det ≠ 0)
    (hinv : InverseContract env.vnl_matrix_inverse)
    (hint : ∀ i, f.m_StartIndDef i ≤ idx i - 1 ∧ idx i + 1 ≤ f.m_EndIndDef i - 1) :
    ComputeLocalJacobianMatrix env f idx = some A := by
  refine ComputeLocalJacobianMatrix_affine env f transform A b idx h2 hT haff hsp hdir hinv
    (fun i => ?_) ?_
  · rw [posAfter_apply_self, posBef_apply_self]
    have := hint i
    omega
  · have := hint ⟨2, h2⟩
    omega

/-- Witness of C4: the quarter turn followed by a translation, on the unit
`3 x 3 x 3` grid, at the central voxel `(1,1,1)`. -/
theorem finite_difference_consistency_witness :
    ComputeLocalJacobianMatrix (exampleExternals 3)
      (exampleFilter (affineTransform quarterTurn (fun _ => 5) false) false false
        (cubeRegion 3 0 3) (cubeRegion 3 0 3)) (fun _ => 1) = some quarterTurn :=
  finite_difference_consistency (exampleExternals 3) _
    (affineTransform quarterTurn (fun _ => 5) false) quarterTurn (fun _ => 5) (fun _ => 1)
    (by decide) rfl (fun _ => rfl) (unitImage_spacing_pos _ _) (unitImage_det_ne_zero _ _)
    matrixInverse_contract (by intro i; simp [exampleFilter, cubeRegion])

/-- C5. `BeforeThreadedGenerateData` throws its configuration error exactly
when the transform is unset, and when it throws nothing has been allocated: the
output image (geometry, component count, buffer), the interpolator and the
definition domain bounds are as they were before the call. -/
theorem setup_failure {N : ℕ} (env : Externals N) (f : Filter N) :
    ((BeforeThreadedGenerateData env f).exception = some "No valid transformation..." ↔
        f.m_Transform = none) ∧
    ((BeforeThreadedGenerateData env f).exception = none ↔ f.m_Transform ≠ none) ∧
    (f.m_Transform = none →
      (BeforeThreadedGenerateData env f).filter.output = f.output ∧
      (BeforeThreadedGenerateData env f).filter.m_Interpolator = f.m_Interpolator ∧
      (BeforeThreadedGenerateData env f).filter.m_StartIndDef = f.m_StartIndDef ∧
      (BeforeThreadedGenerateData env f).filter.m_EndIndDef = f.m_EndIndDef) := by
  cases hT : f.m_Transform with
  | none => simp [BeforeThreadedGenerateData, hT]
  | some t => simp [BeforeThreadedGenerateData, hT]

/-- C6, evaluated where it fails. On a four-dimensional grid whose definition
domain has size `2 x 2 x 2 x 1`, extent one along the last axis, with the
identity transform and unit geometry, the matrix returned by
`ComputeLocalJacobianMatrix` at the voxel `(0,0,0,0)` has entry `[3][3]` equal
to `0`, not `1`: the source tests and overwrites axis `2`, not the last axis. -/
theorem degenerate_last_axis_dimension_four :
    (exampleFilter (identityTransform 4 false) false false thinLastAxisRegion4
        thinLastAxisRegion4).m_EndIndDef 3 -
      (exampleFilter (identityTransform 4 false) false false thinLastAxisRegion4
        thinLastAxisRegion4).m_StartIndDef 3 = 1 ∧
    ∃ J, ComputeLocalJacobianMatrix (exampleExternals 4)
        (exampleFilter (identityTransform 4 false) false false thinLastAxisRegion4
          thinLastAxisRegion4) (fun _ => 0) = some J ∧ J 3 3 = 0 := by
  refine ⟨by decide, _, ComputeLocalJacobianMatrix_nofixup _ _ (identityTransform 4 false) _
    (by decide) rfl (by decide), ?_⟩
  have hres : ∀ k, resDiff (exampleFilter (identityTransform 4 false) false false
      thinLastAxisRegion4 thinLastAxisRegion4) (identityTransform 4 false) (fun _ => 0) k 3
      = 0 := by
    intro k
    simp only [resDiff, Matrix.of_apply]
    split_ifs with hdeg
    · rfl
    · have hk : k ≠ 3 := by
        intro hk
        subst hk
        exact hdeg (by decide)
      show TransformIndexToPhysicalPoint _ _ 3 - TransformIndexToPhysicalPoint _ _ 3 = 0
      rw [point_diff_axis]
      have hM : IndexToPhysicalPointMatrix (exampleFilter (identityTransform 4 false) false
          false thinLastAxisRegion4 thinLastAxisRegion4).output 3 k = 0 := by
        simp [exampleFilter, IndexToPhysicalPointMatrix, unitImage, Matrix.one_apply,
          Ne.symm hk]
      rw [hM, zero_mul]
  simp [jacMatrix, hres]

/-- C7. Boundary clamping: at a voxel whose component along axis `i` is the
lower bound of the definition domain, the index `posBef` used for axis `i` is
the voxel index itself, in every component. -/
theorem boundary_clamping {N : ℕ} (f : Filter N) (idx : IndexType N) (i : Fin N)
    (h : idx i = f.m_StartIndDef i) : posBef f idx i = idx := by
  funext c
  by_cases hc : c = i
  · subst hc
    rw [posBef_apply_self]
    omega
  · exact posBef_apply_ne f idx hc

/-- Witness of C7: the corner voxel `(0,0,0)` of the unit `3 x 3 x 3` grid,
along the first axis. -/
theorem boundary_clamping_witness :
    posBef (exampleFilter (identityTransform 3 false) false false (cubeRegion 3 0 3)
      (cubeRegion 3 0 3)) (fun _ => 0) 0 = fun _ => 0 :=
  boundary_clamping _ (fun _ => 0) 0 rfl

/-- C8. Linear-path rotation constancy: within one call of
`LinearThreadedGenerateData` there is a single matrix, the rotation extractor
applied to the constant matrix of the transform, which is the one passed to
`ReorientInterpolatedModel` for every output voxel of the region whose
interpolated value is not zero; it depends neither on the voxel index nor on
the interpolated value. -/
theorem linear_rotation_constancy {N : ℕ} (env : Externals N) (f : Filter N)
    (region : ImageRegion N) (threadId : ThreadIdType) (h0 : 0 < N)
    (transform : TransformType N) (interpolator : InterpolatorType N) (image : ImageType N)
    (A : MatrixType N)
    (hT : f.m_Transform = some transform) (hI : f.m_Interpolator = some interpolator)
    (himg : interpolator.inputImage = some image)
    (hA : ComputeLinearJacobianMatrix f = some A) :
    ∃ M, M = (ComputeRotationParametersFromReorientationMatrix env f A).2 ∧
      ∃ g, LinearThreadedGenerateData env f region threadId = some g ∧
        ∀ idx, region.IsInside idx →
          isZero (interpolatedValue f interpolator image
            (linearMappedIndex f transform h0 idx)) = false →
          g.output.buffer idx = env.ReorientInterpolatedModel
            (interpolatedValue f interpolator image (linearMappedIndex f transform h0 idx))
            M threadId := by
  have hA2 : transform.GetMatrix = some A := by
    simpa [ComputeLinearJacobianMatrix, hT] using hA
  obtain ⟨g, hg, _, hin, _⟩ :=
    linear_spec env f region threadId h0 transform interpolator image A hT hI himg hA2
  refine ⟨_, rfl, g, hg, fun idx hidx hz => ?_⟩
  rw [hin idx hidx, writtenValue, hz]
  simp

/-- Witness of C8: the quarter turn on the unit `3 x 3 x 3` grid. -/
theorem linear_rotation_constancy_witness :
    ∃ M, M = quarterTurn ∧
      ∃ g, LinearThreadedGenerateData (exampleExternals 3)
        (exampleFilter (affineTransform quarterTurn 0 true) true false (cubeRegion 3 0 3)
          (cubeRegion 3 0 3)) (cubeRegion 3 0 3) 0 = some g := by
  obtain ⟨M, hM, g, hg, _⟩ := linear_rotation_constancy (exampleExternals 3)
    (exampleFilter (affineTransform quarterTurn 0 true) true false (cubeRegion 3 0 3)
      (cubeRegion 3 0 3)) (cubeRegion 3 0 3) 0 (by decide)
    (affineTransform quarterTurn 0 true) _ _ quarterTurn rfl rfl rfl rfl
  exact ⟨M, hM, g, hg⟩

/-- C9. Rotation extractor with finite strain disabled: the matrix returned
is the Jacobian itself, entry for entry, and the Jacobian is left unchanged. -/
theorem rotation_extractor_disabled {N : ℕ} (env : Externals N) (f : Filter N)
    (J : MatrixType N) (h : f.m_FiniteStrainReorientation = false) :
    ComputeRotationParametersFromReorientationMatrix env f J = (J, J) := by
  simp [ComputeRotationParametersFromReorientationMatrix, h]

/-- Witness of C9: the matrix `2 I` with finite strain disabled. -/
theorem rotation_extractor_disabled_witness :
    ComputeRotationParametersFromReorientationMatrix (exampleExternals 3)
      (exampleFilter (identityTransform 3 true) true false (cubeRegion 3 0 3)
        (cubeRegion 3 0 3)) (2 • (1 : MatrixType 3))
      = (2 • (1 : MatrixType 3), 2 • (1 : MatrixType 3)) :=
  rotation_extractor_disabled _ _ _ rfl

/-- C10. Rotation extractor on a pure rotation: when the matrix `Q` of the
transform is a rotation (`Qᵀ Q = I`, `det Q = 1`) and finite strain is enabled,
the matrix returned by `ComputeRotationParametersFromReorientationMatrix`, the
orthonormal factor of the polar decomposition of `Q`, is `Q` itself. -/
theorem rotation_extractor_pure_rotation {N : ℕ} (env : Externals N) (f : Filter N)
    (Q : MatrixType N) (hQ : Q.transpose * Q = 1) (_hdet : Q.det = 1)
    (hfs : f.m_FiniteStrainReorientation = true)
    (hspec : IsFiniteStrainRotation Q (env.ExtractRotationFromJacobianMatrix Q).2) :
    (ComputeRotationParametersFromReorientationMatrix env f Q).2 = Q := by
  simp only [ComputeRotationParametersFromReorientationMatrix, hfs, if_true]
  exact finite_strain_rotation_unique Q _ hQ hspec

/-- Witness of C10: the quarter turn about the third axis. -/
theorem rotation_extractor_pure_rotation_witness :
    (ComputeRotationParametersFromReorientationMatrix (exampleExternals 3)
      (exampleFilter (affineTransform quarterTurn 0 true) true true (cubeRegion 3 0 3)
        (cubeRegion 3 0 3)) quarterTurn).2 = quarterTurn :=
  rotation_extractor_pure_rotation (exampleExternals 3) _ quarterTurn quarterTurn_orthogonal
    quarterTurn_det rfl (isFiniteStrainRotation_self quarterTurn quarterTurn_orthogonal)

/-- C14, amended. Matrix form of the estimator: for every `diff` and every
`delta` (with `invDelta` the library inverse of `delta`), the matrix computed
entrywise by `ComputeLocalJacobianMatrix` as
`Jacobian[j][i] = sum over k of invDelta[i][k] * diff[k][j]` is the transpose
of `invDelta * diff`, that is `diffᵀ * invDeltaᵀ`. -/
theorem estimator_matrix_form {N : ℕ} (env : Externals N) (delta diff : MatrixType N) :
    (∀ i j, jacMatrix (env.vnl_matrix_inverse delta) diff j i
      = ∑ k, env.vnl_matrix_inverse delta i k * diff k j) ∧
    jacMatrix (env.vnl_matrix_inverse delta) diff
      = (env.vnl_matrix_inverse delta * diff).transpose ∧
    jacMatrix (env.vnl_matrix_inverse delta) diff
      = diff.transpose * (env.vnl_matrix_inverse delta).transpose := by
  refine ⟨fun _ _ => rfl, jacMatrix_eq_transpose _ _, ?_⟩
  rw [jacMatrix_eq_transpose, Matrix.transpose_mul]

/-- Counterexample to C14 as stated: for the invertible `shearDelta` and
`cornerDiff`, the matrix computed entrywise by the source has entry `(1,0)`
equal to `0`, whereas `(diffᵀ * invDelta)ᵀ` has entry `(1,0)` equal to `1`. -/
theorem estimator_matrix_form_counterexample :
    shearDelta.det ≠ 0 ∧
    jacMatrix ((exampleExternals 3).vnl_matrix_inverse shearDelta) cornerDiff 1 0 = 0 ∧
    (cornerDiff.transpose * (exampleExternals 3).vnl_matrix_inverse shearDelta).transpose 1 0
      = 1 ∧
    jacMatrix ((exampleExternals 3).vnl_matrix_inverse shearDelta) cornerDiff
      ≠ (cornerDiff.transpose * (exampleExternals 3).vnl_matrix_inverse shearDelta).transpose := by
  have hdet : shearDelta.det ≠ 0 := by
    simp [shearDelta, Matrix.det_fin_three]
  have hinv : (exampleExternals 3).vnl_matrix_inverse shearDelta = shearDeltaInverse := by
    have h1 : matrixInverse shearDelta * shearDelta = 1 := matrixInverse_mul _ hdet
    have h2 : shearDelta * shearDeltaInverse = 1 := by
      ext i j
      fin_cases i <;> fin_cases j <;>
        simp [shearDelta, shearDeltaInverse, Matrix.mul_apply, Fin.sum_univ_three,
          Matrix.one_apply, Matrix.vecHead, Matrix.vecTail]
    show matrixInverse shearDelta = shearDeltaInverse
    calc matrixInverse shearDelta
        = matrixInverse shearDelta * (shearDelta * shearDeltaInverse) := by
          rw [h2, Matrix.mul_one]
      _ = shearDeltaInverse := by rw [← Matrix.mul_assoc, h1, Matrix.one_mul]
  have hJ : jacMatrix ((exampleExternals 3).vnl_matrix_inverse shearDelta) cornerDiff 1 0
      = 0 := by
    rw [hinv]
    simp [jacMatrix, shearDeltaInverse, cornerDiff, Fin.sum_univ_three]
  have hC : (cornerDiff.transpose *
      (exampleExternals 3).vnl_matrix_inverse shearDelta).transpose 1 0 = 1 := by
    rw [hinv]
    simp [shearDeltaInverse, cornerDiff, Matrix.mul_apply, Fin.sum_univ_three,
      Matrix.transpose, Matrix.vecHead, Matrix.vecTail]
  refine ⟨hdet, hJ, hC, fun h => ?_⟩
  have := congrFun (congrFun h 1) 0
  rw [hJ, hC] at this
  exact zero_ne_one this

/-- C16. Neighbour clamping stays in the domain: for a voxel index inside a
(non-empty) definition domain and every axis `i`, `posBef[i]` is
`max(idx[i]-1, StartIndDef[i])`, `posAfter[i]` is `min(idx[i]+1, EndIndDef[i]-1)`,
both neighbours agree with the index on every other component, both lie inside
the definition domain and `posBef[i] ≤ posAfter[i]`. -/
theorem neighbour_clamping {N : ℕ} (f : Filter N) (idx : IndexType N)
    (hin : ∀ i, f.m_StartIndDef i ≤ idx i ∧ idx i < f.m_EndIndDef i) (i : Fin N) :
    posBef f idx i i = max (idx i - 1) (f.m_StartIndDef i) ∧
    posAfter f idx i i = min (idx i + 1) (f.m_EndIndDef i - 1) ∧
    (∀ c, c ≠ i → posBef f idx i c = idx c ∧ posAfter f idx i c = idx c) ∧
    (∀ c, f.m_StartIndDef c ≤ posBef f idx i c ∧ posBef f idx i c < f.m_EndIndDef c) ∧
    (∀ c, f.m_StartIndDef c ≤ posAfter f idx i c ∧ posAfter f idx i c < f.m_EndIndDef c) ∧
    posBef f idx i i ≤ posAfter f idx i i := by
  have hb := posBef_apply_self f idx i
  have ha := posAfter_apply_self f idx i
  have hi := hin i
  refine ⟨hb, ha, fun c hc => ⟨posBef_apply_ne f idx hc, posAfter_apply_ne f idx hc⟩,
    fun c => ?_, fun c => ?_, by omega⟩
  · by_cases hc : c = i
    · subst hc
      omega
    · rw [posBef_apply_ne f idx hc]
      exact hin c
  · by_cases hc : c = i
    · subst hc
      omega
    · rw [posAfter_apply_ne f idx hc]
      exact hin c

/-- Witness of C16: the corner voxel `(0,0,0)` of the unit `3 x 3 x 3` grid,
along the first axis: the neighbours are `(0,0,0)` and `(1,0,0)`. -/
theorem neighbour_clamping_witness :
    posBef (exampleFilter (identityTransform 3 false) false false (cubeRegion 3 0 3)
        (cubeRegion 3 0 3)) (fun _ => 0) 0 0 = 0 ∧
    posAfter (exampleFilter (identityTransform 3 false) false false (cubeRegion 3 0 3)
        (cubeRegion 3 0 3)) (fun _ => 0) 0 0 = 1 := by
  obtain ⟨hb, ha, _⟩ := neighbour_clamping
    (exampleFilter (identityTransform 3 false) false false (cubeRegion 3 0 3)
      (cubeRegion 3 0 3)) (fun _ => 0) (by intro i; simp [exampleFilter, cubeRegion]) 0
  rw [hb, ha]
  simp [exampleFilter, cubeRegion]

/-- C17. One-voxel-thick axis: for a voxel index inside the definition domain
and an axis `i`, `ComputeLocalJacobianMatrix` takes the degenerate branch
(`posAfter[i] == posBef[i]`) exactly when the definition domain has extent one
along axis `i`. In that case row `i` of `deltaMatrix` is zero except for a one
on the diagonal and row `i` of `resDiff` is zero whatever the transform, which
is not evaluated for that axis. Otherwise row `i` of `deltaMatrix` is the
difference of the two physical points and row `i` of `resDiff` the difference
of their images by the transform. -/
theorem thin_axis_branch {N : ℕ} (f : Filter N) (idx : IndexType N)
    (hin : ∀ i, f.m_StartIndDef i ≤ idx i ∧ idx i < f.m_EndIndDef i) (i : Fin N) :
    (posAfter f idx i i = posBef f idx i i ↔ f.m_EndIndDef i - f.m_StartIndDef i = 1) ∧
    (f.m_EndIndDef i - f.m_StartIndDef i = 1 →
      (∀ j, deltaMatrix f idx i j = if j = i then 1 else 0) ∧
      ∀ (transform : TransformType N) j, resDiff f transform idx i j = 0) ∧
    (f.m_EndIndDef i - f.m_StartIndDef i ≠ 1 →
      (∀ j, deltaMatrix f idx i j =
        TransformIndexToPhysicalPoint f.output (posAfter f idx i) j -
          TransformIndexToPhysicalPoint f.output (posBef f idx i) j) ∧
      ∀ (transform : TransformType N) j, resDiff f transform idx i j =
        transform.TransformPoint (TransformIndexToPhysicalPoint f.output (posAfter f idx i)) j -
          transform.TransformPoint
            (TransformIndexToPhysicalPoint f.output (posBef f idx i)) j) := by
  have hiff : posAfter f idx i i = posBef f idx i i ↔
      f.m_EndIndDef i - f.m_StartIndDef i = 1 := by
    rw [posAfter_apply_self, posBef_apply_self]
    have := hin i
    constructor <;> intro h <;> omega
  refine ⟨hiff, fun h => ?_, fun h => ?_⟩
  · have hdeg := hiff.2 h
    exact ⟨fun j => by simp [deltaMatrix, hdeg], fun transform j => by simp [resDiff, hdeg]⟩
  · have hnd : ¬ posAfter f idx i i = posBef f idx i i := fun e => h (hiff.1 e)
    exact ⟨fun j => by simp [deltaMatrix, hnd], fun transform j => by simp [resDiff, hnd]⟩

/-- Witness of C17: on the `1 x 2 x 2` region the first axis is degenerate at
the voxel `(0,0,0)` and the second is not. -/
theorem thin_axis_branch_witness :
    posAfter (exampleFilter (identityTransform 3 false) false false thinFirstAxisRegion
        thinFirstAxisRegion) (fun _ => 0) 0 0
      = posBef (exampleFilter (identityTransform 3 false) false false thinFirstAxisRegion
        thinFirstAxisRegion) (fun _ => 0) 0 0 ∧
    posAfter (exampleFilter (identityTransform 3 false) false false thinFirstAxisRegion
        thinFirstAxisRegion) (fun _ => 0) 1 1
      ≠ posBef (exampleFilter (identityTransform 3 false) false false thinFirstAxisRegion
        thinFirstAxisRegion) (fun _ => 0) 1 1 := by
  have hin : ∀ i, (exampleFilter (identityTransform 3 false) false false thinFirstAxisRegion
      thinFirstAxisRegion).m_StartIndDef i ≤ (fun _ => 0 : IndexType 3) i ∧
      (fun _ => 0 : IndexType 3) i < (exampleFilter (identityTransform 3 false) false false
        thinFirstAxisRegion thinFirstAxisRegion).m_EndIndDef i := by decide
  constructor
  · exact (thin_axis_branch _ (fun _ => 0) hin 0).1.2 (by decide)
  · exact fun e => absurd ((thin_axis_branch _ (fun _ => 0) hin 1).1.1 e) (by decide)

/-- C18. Definition-domain capture: when `BeforeThreadedGenerateData` succeeds
(the transform is set), with a nonlinear transform `m_StartIndDef` is the start
index of the output region and `m_EndIndDef` is start index plus size in every
component; with a linear transform both are left as they were. -/
theorem definition_domain_capture {N : ℕ} (env : Externals N) (f : Filter N)
    (hT : f.m_Transform ≠ none) :
    (BeforeThreadedGenerateData env f).exception = none ∧
    (BeforeThreadedGenerateData env f).filter.output.largestPossibleRegion
      = f.m_OutputLargestPossibleRegion ∧
    (f.m_LinearTransform = false →
      (BeforeThreadedGenerateData env f).filter.m_StartIndDef
        = f.m_OutputLargestPossibleRegion.index ∧
      ∀ i, (BeforeThreadedGenerateData env f).filter.m_EndIndDef i
        = f.m_OutputLargestPossibleRegion.index i +
          (f.m_OutputLargestPossibleRegion.size i : ℤ)) ∧
    (f.m_LinearTransform = true →
      (BeforeThreadedGenerateData env f).filter.m_StartIndDef = f.m_StartIndDef ∧
      (BeforeThreadedGenerateData env f).filter.m_EndIndDef = f.m_EndIndDef) := by
  cases hT2 : f.m_Transform with
  | none => exact absurd hT2 hT
  | some t =>
    cases hl : f.m_LinearTransform <;> simp [BeforeThreadedGenerateData, hT2, hl]

/-- Witness of C18: setup of the example filter with a transform without
matrix, whose definition domain is first reset to zero, over the
`2 x 2 x 2 x 1` output region. -/
theorem definition_domain_capture_witness :
    (BeforeThreadedGenerateData (exampleExternals 4)
      { exampleFilter (identityTransform 4 false) false false thinLastAxisRegion4
          thinLastAxisRegion4 with
        m_StartIndDef := fun _ => 0, m_EndIndDef := fun _ => 0 }).filter.m_EndIndDef 3 = 1 := by
  obtain ⟨_, _, h, _⟩ := definition_domain_capture (exampleExternals 4)
    { exampleFilter (identityTransform 4 false) false false thinLastAxisRegion4
        thinLastAxisRegion4 with
      m_StartIndDef := fun _ => 0, m_EndIndDef := fun _ => 0 } (by simp [exampleFilter])
  rw [(h rfl).2 3]
  decide

/-- C19. Non-singular delta away from degenerate axes: for an output geometry
with positive spacing and invertible direction, a definition domain of extent
at least two along every axis and a voxel index anywhere inside it, boundary
included, `deltaMatrix` is non-singular, so that the library inverse is its
inverse, and for an affine transform `p ↦ A p + b` the matrix returned by
`ComputeLocalJacobianMatrix` is `A` (the grid having at least three axes). -/
theorem delta_nonsingular {N : ℕ} (env : Externals N) (f : Filter N)
    (transform : TransformType N) (A : MatrixType N) (b : PointType N) (idx : IndexType N)
    (h2 : 2 < N) (hT : f.m_Transform = some transform)
    (haff : ∀ p, transform.TransformPoint p = A.mulVec p + b)
    (hsp : ∀ i, 0 < f.output.spacing i) (hdir : f.output.direction.det ≠ 0)
    (hinv : InverseContract env.vnl_matrix_inverse)
    (hin : ∀ i, f.m_StartIndDef i ≤ idx i ∧ idx i < f.m_EndIndDef i)
    (hthick : ∀ i, f.m_StartIndDef i + 2 ≤ f.m_EndIndDef i) :
    (deltaMatrix f idx).det ≠ 0 ∧
    env.vnl_matrix_inverse (deltaMatrix f idx) * deltaMatrix f idx = 1 ∧
    ComputeLocalJacobianMatrix env f idx = some A := by
  have hdet := det_deltaMatrix_ne_zero f idx hsp hdir (steps_of_thick_domain f idx hin hthick)
  exact ⟨hdet, hinv _ hdet,
    ComputeLocalJacobianMatrix_thick env f transform A b idx h2 hT haff hsp hdir hinv hin hthick⟩

/-- Witness of C19: the quarter turn followed by a translation, on the unit
`3 x 3 x 3` grid, at the corner voxel `(0,0,0)`. -/
theorem delta_nonsingular_witness :
    ComputeLocalJacobianMatrix (exampleExternals 3)
      (exampleFilter (affineTransform quarterTurn (fun _ => 5) false) false false
        (cubeRegion 3 0 3) (cubeRegion 3 0 3)) (fun _ => 0) = some quarterTurn :=
  (delta_nonsingular (exampleExternals 3) _
    (affineTransform quarterTurn (fun _ => 5) false) quarterTurn (fun _ => 5) (fun _ => 0)
    (by decide) rfl (fun _ => rfl) (unitImage_spacing_pos _ _) (unitImage_det_ne_zero _ _)
    matrixInverse_contract (by intro i; simp [exampleFilter, cubeRegion])
    (by intro i; simp [exampleFilter, cubeRegion])).2.2

/-- C12. Region and order independence: the value written at an output voxel
is a function of its index alone. When sub-regions cover exactly the output
region, processing them by successive calls of `ThreadedGenerateData`, with
any worker identifiers and in any order, gives the same filter, hence the same
output image, as one call on the whole region (the result of the
reorientation method not depending on the worker identifier, which only names
its scratch space). -/
theorem region_order_independence {N : ℕ} (env : Externals N) (f : Filter N)
    (whole : ImageRegion N) (threadId : ThreadIdType)
    (parts : List (ImageRegion N × ThreadIdType)) (transform : TransformType N)
    (interpolator : InterpolatorType N) (image : ImageType N)
    (hT : f.m_Transform = some transform) (hI : f.m_Interpolator = some interpolator)
    (himg : interpolator.inputImage = some image)
    (hlin : f.m_LinearTransform = true → 0 < N ∧ ∃ A, transform.GetMatrix = some A)
    (hnl : f.m_LinearTransform = false → 2 < N)
    (hthread : ∀ v M t1 t2,
      env.ReorientInterpolatedModel v M t1 = env.ReorientInterpolatedModel v M t2)
    (hcover : ∀ idx, whole.IsInside idx ↔ ∃ part ∈ parts, part.1.IsInside idx) :
    ∃ g, ThreadedGenerateData env f whole threadId = some g ∧
      processRegions env f parts = some g ∧
      (∀ parts2 : List (ImageRegion N × ThreadIdType), parts2.Perm parts →
        processRegions env f parts2 = some g) ∧
      ∀ idx, whole.IsInside idx → ∀ t,
        g.output.buffer idx = resampledValue env f transform interpolator image t idx := by
  have hwhole := threaded_writes env f whole threadId transform interpolator image hT hI himg
    hlin hnl f.output.buffer
  have hparts : ∀ parts2 : List (ImageRegion N × ThreadIdType),
      (∀ idx, whole.IsInside idx ↔ ∃ part ∈ parts2, part.1.IsInside idx) →
      processRegions env f parts2 = some (f.withBuffer (whole.indices.foldl
        (fun b idx => Function.update b idx
          (resampledValue env f transform interpolator image threadId idx))
        f.output.buffer)) := by
    intro parts2 hc
    obtain ⟨b, hb, hin, hout⟩ := processRegions_spec env f transform interpolator image hT hI
      himg hlin hnl hthread threadId parts2 f.output.buffer
    have hbeq : b = whole.indices.foldl (fun b idx => Function.update b idx
        (resampledValue env f transform interpolator image threadId idx)) f.output.buffer := by
      funext idx
      rw [foldl_update_apply]
      by_cases h : idx ∈ whole.indices
      · rw [if_pos h, hin idx ((hc idx).1 ((whole.mem_indices idx).1 h))]
      · rw [if_neg h, hout idx (fun e => h ((whole.mem_indices idx).2 ((hc idx).2 e)))]
    rw [← hbeq]
    exact hb
  refine ⟨_, hwhole, hparts parts hcover, fun parts2 hperm => hparts parts2 fun idx => ?_,
    fun idx hidx t => ?_⟩
  · rw [hcover idx]
    constructor
    · rintro ⟨p, hp, hpi⟩
      exact ⟨p, hperm.mem_iff.2 hp, hpi⟩
    · rintro ⟨p, hp, hpi⟩
      exact ⟨p, hperm.mem_iff.1 hp, hpi⟩
  · show whole.indices.foldl _ f.output.buffer idx = _
    rw [foldl_update_apply, if_pos ((whole.mem_indices idx).2 hidx)]
    exact resampledValue_thread env f transform interpolator image hthread _ _ idx

/-- Witness of C12: the `2 x 2 x 2` output region of the example filter split
into its lower and upper slabs, processed upper slab first by worker 1 and
lower slab by worker 0, against the whole region processed by worker 7. -/
theorem region_order_independence_witness :
    ∃ g, ThreadedGenerateData (exampleExternals 3)
        (exampleFilter (identityTransform 3 false) false false (cubeRegion 3 0 2)
          (cubeRegion 3 0 2)) (cubeRegion 3 0 2) 7 = some g ∧
      processRegions (exampleExternals 3)
        (exampleFilter (identityTransform 3 false) false false (cubeRegion 3 0 2)
          (cubeRegion 3 0 2)) [(upperSlab, 1), (lowerSlab, 0)] = some g := by
  obtain ⟨g, hg, hp, _⟩ := region_order_independence (exampleExternals 3)
    (exampleFilter (identityTransform 3 false) false false (cubeRegion 3 0 2)
      (cubeRegion 3 0 2)) (cubeRegion 3 0 2) 7 [(upperSlab, 1), (lowerSlab, 0)]
    (identityTransform 3 false) _ _ rfl rfl rfl (fun h => by simp [exampleFilter] at h)
    (fun _ => by decide) (fun _ _ _ _ => rfl)
    (by
      intro idx
      simp only [ImageRegion.IsInside, cubeRegion, upperSlab, lowerSlab, List.mem_cons,
        List.mem_singleton, List.not_mem_nil, or_false, exists_eq_or_imp, exists_eq_left,
        Fin.forall_fin_succ, Fin.forall_fin_zero_pi, Matrix.cons_val_zero, Matrix.cons_val_succ]
      simp
      omega)
  exact ⟨g, hg, hp⟩

/-- C13. Write confinement: one call of `ThreadedGenerateData` on a region,
on either path, performs one write for each index visited by the region
iterator, which visits every index of the region exactly once and no index
outside it. So every output voxel of the region is written exactly once,
receiving the resampled value, every output voxel outside the region is left
as it was, and the input image and the definition domain bounds are unchanged. -/
theorem write_confinement {N : ℕ} (env : Externals N) (f : Filter N) (region : ImageRegion N)
    (threadId : ThreadIdType) (transform : TransformType N)
    (interpolator : InterpolatorType N) (image : ImageType N)
    (hT : f.m_Transform = some transform) (hI : f.m_Interpolator = some interpolator)
    (himg : interpolator.inputImage = some image)
    (hlin : f.m_LinearTransform = true → 0 < N ∧ ∃ A, transform.GetMatrix = some A)
    (hnl : f.m_LinearTransform = false → 2 < N) :
    ∃ g, ThreadedGenerateData env f region threadId = some g ∧
      g.output.buffer = region.indices.foldl
        (fun b idx => Function.update b idx
          (resampledValue env f transform interpolator image threadId idx)) f.output.buffer ∧
      (∀ idx, region.IsInside idx →
        region.indices.count idx = 1 ∧
        g.output.buffer idx = resampledValue env f transform interpolator image threadId idx) ∧
      (∀ idx, ¬ region.IsInside idx →
        region.indices.count idx = 0 ∧ g.output.buffer idx = f.output.buffer idx) ∧
      g.input = f.input ∧ g.m_StartIndDef = f.m_StartIndDef ∧ g.m_EndIndDef = f.m_EndIndDef := by
  have hw := threaded_writes env f region threadId transform interpolator image hT hI himg
    hlin hnl f.output.buffer
  refine ⟨_, hw, rfl, fun idx hidx => ?_, fun idx hidx => ?_, rfl, rfl, rfl⟩
  · have hm := (region.mem_indices idx).2 hidx
    refine ⟨by rw [region.count_indices, if_pos hm], ?_⟩
    show region.indices.foldl _ f.output.buffer idx = _
    rw [foldl_update_apply, if_pos hm]
  · have hm : idx ∉ region.indices := fun h => hidx ((region.mem_indices idx).1 h)
    refine ⟨by rw [region.count_indices, if_neg hm], ?_⟩
    show region.indices.foldl _ f.output.buffer idx = _
    rw [foldl_update_apply, if_neg hm]

/-- Witness of C13: the lower slab of the `2 x 2 x 2` output region of the
example filter, on the linear path; the voxel `(1,1,1)` of the upper slab keeps
its previous content `[]` and the voxel `(1,1,0)` is written once. -/
theorem write_confinement_witness :
    ∃ g, ThreadedGenerateData (exampleExternals 3)
        (exampleFilter (identityTransform 3 true) true false (cubeRegion 3 0 2)
          (cubeRegion 3 0 2)) lowerSlab 0 = some g ∧
      g.output.buffer (fun _ => 1) = [] ∧ lowerSlab.indices.count ![1, 1, 0] = 1 := by
  obtain ⟨g, hg, _, hin, hout, _⟩ := write_confinement (exampleExternals 3)
    (exampleFilter (identityTransform 3 true) true false (cubeRegion 3 0 2)
      (cubeRegion 3 0 2)) lowerSlab 0 (identityTransform 3 true) _ _ rfl rfl rfl
    (fun _ => ⟨by decide, 1, rfl⟩) (fun h => by simp [exampleFilter] at h)
  refine ⟨g, hg, ?_, ?_⟩
  · rw [(hout (fun _ => 1) (fun h => by
      have := (h 2).2
      simp [lowerSlab] at this)).2]
    rfl
  · exact (hin ![1, 1, 0] (by
      intro i
      fin_cases i <;> simp [lowerSlab])).1

/-- Counterexample to C11 as stated. The output grid has a region of size
`10 x 10 x 1`, unit spacing, zero origin and the orthonormal direction
`obliqueDirection`, and the transform is `p ↦ 2 p`. At the voxel `(0,0,0)` of
the region the matrix returned by `ComputeLocalJacobianMatrix` has entry
`[2][1]` equal to `8/3` and entry `[1][2]` equal to `0`: it is not symmetric. -/
theorem degenerate_slice_scenario_counterexample :
    obliqueSliceFilter.output.direction.transpose * obliqueSliceFilter.output.direction = 1 ∧
    (∀ i, 0 < obliqueSliceFilter.output.spacing i) ∧
    obliqueSliceFilter.output.largestPossibleRegion.size = ![10, 10, 1] ∧
    obliqueSliceFilter.output.largestPossibleRegion.IsInside (fun _ => 0) ∧
    (∀ p, (scalingTransform 3 2 false).TransformPoint p = (2 : ℚ) • p) ∧
    ∃ J, ComputeLocalJacobianMatrix (exampleExternals 3) obliqueSliceFilter (fun _ => 0)
        = some J ∧
      J 2 2 = 1 ∧ J 2 1 = 8 / 3 ∧ J 1 2 = 0 ∧ J.transpose ≠ J := by
  have horth : obliqueDirection.transpose * obliqueDirection = 1 := by
    ext i j
    fin_cases i <;> fin_cases j <;>
      simp [obliqueDirection, Matrix.mul_apply, Fin.sum_univ_three, Matrix.one_apply,
        Matrix.transpose, Matrix.vecHead, Matrix.vecTail] <;> norm_num
  have hins : obliqueSliceFilter.output.largestPossibleRegion.IsInside (fun _ => 0) := by
    intro i
    fin_cases i <;> simp [obliqueSliceFilter, unitImage, sliceRegion]
  have hthin : posAfter obliqueSliceFilter (fun _ => 0) 2 2
      = posBef obliqueSliceFilter (fun _ => 0) 2 2 := by decide
  have hstep : ∀ i : Fin 3, i ≠ 2 →
      ¬ posAfter obliqueSliceFilter (fun _ => 0) i i
        = posBef obliqueSliceFilter (fun _ => 0) i i := by decide
  have hstepval : ∀ i : Fin 3, i ≠ 2 →
      ((posAfter obliqueSliceFilter (fun _ => 0) i i : ℤ) : ℚ)
        - ((posBef obliqueSliceFilter (fun _ => 0) i i : ℤ) : ℚ) = 1 := by
    intro i hi
    have h1 : posAfter obliqueSliceFilter (fun _ => 0) i i = 1 := by
      revert i
      decide
    have h0 : posBef obliqueSliceFilter (fun _ => 0) i i = 0 := by
      revert i
      decide
    rw [h1, h0]
    norm_num
  have hM : ∀ r c, IndexToPhysicalPointMatrix obliqueSliceFilter.output r c
      = obliqueDirection r c := by
    intro r c
    rw [IndexToPhysicalPointMatrix_apply]
    simp [obliqueSliceFilter, unitImage]
  have hdelta : deltaMatrix obliqueSliceFilter (fun _ => 0) = obliqueDelta := by
    ext i j
    by_cases hi : i = 2
    · subst hi
      rw [deltaMatrix_apply_thin _ _ _ _ hthin]
      fin_cases j <;> simp [obliqueDelta, Matrix.vecHead, Matrix.vecTail]
    · rw [deltaMatrix_apply_step _ _ _ _ (hstep i hi), hstepval i hi, hM, mul_one]
      fin_cases i <;> fin_cases j <;>
        simp [obliqueDelta, obliqueDirection, Matrix.vecHead, Matrix.vecTail] at hi ⊢
  have hdiff : ∀ l j, resDiff obliqueSliceFilter (scalingTransform 3 2 false) (fun _ => 0) l j
      = if l = 2 then 0 else 2 * obliqueDelta l j := by
    intro l j
    by_cases hl : l = 2
    · subst hl
      rw [resDiff_apply_thin _ _ _ _ _ hthin, if_pos rfl]
    · rw [resDiff_apply_affine _ _ ((2 : ℚ) • (1 : MatrixType 3)) 0
        (scaling_affine (scalingTransform 3 2 false) 2 fun _ => rfl) _ _ _ (hstep l hl),
        if_neg hl, hdelta, Matrix.transpose_smul, Matrix.transpose_one, Matrix.mul_smul,
        Matrix.mul_one]
      simp
  have hdet : obliqueDelta.det ≠ 0 := by
    simp [obliqueDelta, Matrix.det_fin_three]
  have hinv : (exampleExternals 3).vnl_matrix_inverse obliqueDelta = obliqueDeltaInverse := by
    have h1 : matrixInverse obliqueDelta * obliqueDelta = 1 := matrixInverse_mul _ hdet
    have h2 : obliqueDelta * obliqueDeltaInverse = 1 := by
      ext i j
      fin_cases i <;> fin_cases j <;>
        simp [obliqueDelta, obliqueDeltaInverse, Matrix.mul_apply, Fin.sum_univ_three,
          Matrix.one_apply, Matrix.vecHead, Matrix.vecTail]
      all_goals norm_num
    show matrixInverse obliqueDelta = obliqueDeltaInverse
    calc matrixInverse obliqueDelta
        = matrixInverse obliqueDelta * (obliqueDelta * obliqueDeltaInverse) := by
          rw [h2, Matrix.mul_one]
      _ = obliqueDeltaInverse := by rw [← Matrix.mul_assoc, h1, Matrix.one_mul]
  have hJ21 : jacMatrix ((exampleExternals 3).vnl_matrix_inverse
      (deltaMatrix obliqueSliceFilter (fun _ => 0)))
      (resDiff obliqueSliceFilter (scalingTransform 3 2 false) (fun _ => 0)) 2 1 = 8 / 3 := by
    rw [hdelta, hinv]
    simp only [jacMatrix, Matrix.of_apply, hdiff, Fin.sum_univ_three]
    simp [obliqueDelta, obliqueDeltaInverse]
    norm_num
  have hJ12 : jacMatrix ((exampleExternals 3).vnl_matrix_inverse
      (deltaMatrix obliqueSliceFilter (fun _ => 0)))
      (resDiff obliqueSliceFilter (scalingTransform 3 2 false) (fun _ => 0)) 1 2 = 0 := by
    rw [hdelta, hinv]
    simp only [jacMatrix, Matrix.of_apply, hdiff, Fin.sum_univ_three]
    simp [obliqueDelta, obliqueDeltaInverse]
  have hfix : obliqueSliceFilter.m_StartIndDef ⟨2, by decide⟩
      = obliqueSliceFilter.m_EndIndDef ⟨2, by decide⟩ - 1 := by decide
  have hT : obliqueSliceFilter.m_Transform = some (scalingTransform 3 2 false) := rfl
  have h2 : 2 < 3 := by decide
  have hspacing : ∀ i, 0 < obliqueSliceFilter.output.spacing i := by
    intro i
    simp [obliqueSliceFilter, unitImage]
  refine ⟨horth, hspacing, rfl, hins, fun _ => rfl,
    Function.update
      (jacMatrix ((exampleExternals 3).vnl_matrix_inverse
        (deltaMatrix obliqueSliceFilter (fun _ => 0)))
        (resDiff obliqueSliceFilter (scalingTransform 3 2 false) (fun _ => 0))) 2
      (Function.update
        (jacMatrix ((exampleExternals 3).vnl_matrix_inverse
          (deltaMatrix obliqueSliceFilter (fun _ => 0)))
          (resDiff obliqueSliceFilter (scalingTransform 3 2 false) (fun _ => 0)) 2) 2 1),
    ?_, ?_, ?_, ?_, ?_⟩
  · simp only [ComputeLocalJacobianMatrix, hT, h2, Option.bind_eq_bind, Option.some_bind,
      Option.pure_def, dite_true]
    rw [if_pos hfix]
    rfl
  · simp
  · have h : (1 : Fin 3) ≠ 2 := by decide
    simp only [Function.update_same, Function.update_noteq h]
    exact hJ21
  · have h : (1 : Fin 3) ≠ 2 := by decide
    simp only [Function.update_noteq h]
    exact hJ12
  · intro hsym
    have h := congrFun (congrFun hsym 1) 2
    have hne : (1 : Fin 3) ≠ 2 := by decide
    simp only [Matrix.transpose_apply, Function.update_same, Function.update_noteq hne] at h
    rw [hJ21, hJ12] at h
    norm_num at h

/-- C11, amended. Degenerate-slice scenario: on a three-dimensional output
grid whose definition domain has size `10 x 10 x 1`, with the transform
`p ↦ 2 p`, at every voxel of the domain the matrix returned by
`ComputeLocalJacobianMatrix` has entry `[2][2]` equal to one. When moreover
the spacing is positive and the direction is orthonormal with its third row
zero off the diagonal (the slice axis is not tilted), the matrix returned is
`diag(2,2,1)`, which is symmetric positive definite, so that the rotation
extracted from it by the finite-strain decomposition is the identity. -/
theorem degenerate_slice_scenario (env : Externals 3) (f : Filter 3)
    (transform : TransformType 3) (idx : IndexType 3)
    (hT : f.m_Transform = some transform)
    (hscale : ∀ p, transform.TransformPoint p = (2 : ℚ) • p)
    (hsize : ∀ i, f.m_EndIndDef i = f.m_StartIndDef i + ((![10, 10, 1] : SizeType 3) i : ℤ))
    (hin : ∀ i, f.m_StartIndDef i ≤ idx i ∧ idx i < f.m_EndIndDef i) :
    (∃ J, ComputeLocalJacobianMatrix env f idx = some J ∧ J 2 2 = 1) ∧
    ((∀ i, 0 < f.output.spacing i) →
      f.output.direction.transpose * f.output.direction = 1 →
      f.output.direction 2 0 = 0 → f.output.direction 2 1 = 0 →
      InverseContract env.vnl_matrix_inverse →
      ComputeLocalJacobianMatrix env f idx = some (Matrix.diagonal ![2, 2, 1]) ∧
      (Matrix.diagonal ![2, 2, 1] : MatrixType 3).transpose = Matrix.diagonal ![2, 2, 1] ∧
      (∀ x : Fin 3 → ℚ, x ≠ 0 →
        0 < Matrix.dotProduct x ((Matrix.diagonal ![2, 2, 1] : MatrixType 3).mulVec x)) ∧
      (f.m_FiniteStrainReorientation = true →
        IsFiniteStrainRotation (Matrix.diagonal ![2, 2, 1])
          (env.ExtractRotationFromJacobianMatrix (Matrix.diagonal ![2, 2, 1])).2 →
        (ComputeRotationParametersFromReorientationMatrix env f
          (Matrix.diagonal ![2, 2, 1])).2 = 1)) := by
  have h2 : 2 < 3 := by decide
  have e0 : ((![10, 10, 1] : SizeType 3) 0 : ℤ) = 10 := rfl
  have e1 : ((![10, 10, 1] : SizeType 3) 1 : ℤ) = 10 := rfl
  have e2 : ((![10, 10, 1] : SizeType 3) ⟨2, h2⟩ : ℤ) = 1 := rfl
  have hs0 := hsize 0
  have hs1 := hsize 1
  have hs2 := hsize ⟨2, h2⟩
  rw [e0] at hs0
  rw [e1] at hs1
  rw [e2] at hs2
  have hthin : f.m_EndIndDef ⟨2, h2⟩ - f.m_StartIndDef ⟨2, h2⟩ = 1 := by omega
  refine ⟨ComputeLocalJacobianMatrix_fixup env f transform idx h2 hT hthin, ?_⟩
  intro hsp horth h20 h21 hinv
  have hdir : f.output.direction.det ≠ 0 := Matrix.det_ne_zero_of_left_inverse horth
  have hthick : ∀ i : Fin 3, i ≠ ⟨2, h2⟩ → f.m_StartIndDef i + 2 ≤ f.m_EndIndDef i := by
    intro i hi
    fin_cases i
    · show f.m_StartIndDef 0 + 2 ≤ f.m_EndIndDef 0
      omega
    · show f.m_StartIndDef 1 + 2 ≤ f.m_EndIndDef 1
      omega
    · exact absurd rfl hi
  have hrow : ∀ i : Fin 3, i ≠ ⟨2, h2⟩ → f.output.direction ⟨2, h2⟩ i = 0 := by
    intro i hi
    fin_cases i
    · exact h20
    · exact h21
    · exact absurd rfl hi
  have hJ := ComputeLocalJacobianMatrix_thin_slice env f transform
    ((2 : ℚ) • (1 : MatrixType 3)) 0 idx h2 hT
    (scaling_affine transform 2 hscale) hsp hdir hinv hin hthin hthick hrow
  have hmat : (Matrix.of fun j i : Fin 3 =>
      if i = ⟨2, h2⟩ then (if j = ⟨2, h2⟩ then (1 : ℚ) else 0)
      else ((2 : ℚ) • (1 : MatrixType 3)) j i) = Matrix.diagonal ![2, 2, 1] := by
    ext j i
    fin_cases j <;> fin_cases i <;> simp [Matrix.one_apply, Matrix.diagonal_apply]
  rw [hmat] at hJ
  refine ⟨hJ, Matrix.diagonal_transpose _, posdef_diag_two_two_one, fun hfs hspec => ?_⟩
  simp only [ComputeRotationParametersFromReorientationMatrix, hfs, if_true]
  refine finite_strain_rotation_of_posdiag ![2, 2, 1] (fun i => ?_) _ hspec
  fin_cases i <;> simp


/-- Witness of C11, amended: the scaling by two over the `10 x 10 x 1` slice
of a unit grid, at the voxel `(5,5,0)`: the matrix returned is `diag(2,2,1)`
and the rotation extracted from it is the identity. -/
theorem degenerate_slice_scenario_witness :
    ComputeLocalJacobianMatrix stretchExternals
        (exampleFilter (scalingTransform 3 2 false) false true sliceRegion sliceRegion)
        ![5, 5, 0] = some (Matrix.diagonal ![2, 2, 1]) ∧
    (ComputeRotationParametersFromReorientationMatrix stretchExternals
        (exampleFilter (scalingTransform 3 2 false) false true sliceRegion sliceRegion)
        (Matrix.diagonal ![2, 2, 1])).2 = 1 := by
  obtain ⟨hJ, _, hpd, hrot⟩ := (degenerate_slice_scenario stretchExternals
    (exampleFilter (scalingTransform 3 2 false) false true sliceRegion sliceRegion)
    (scalingTransform 3 2 false) ![5, 5, 0] rfl (fun _ => rfl) (fun _ => rfl)
    (by decide)).2 (unitImage_spacing_pos _ _) (by simp [exampleFilter, unitImage])
    (by simp [exampleFilter, unitImage]) (by simp [exampleFilter, unitImage])
    matrixInverse_contract
  refine ⟨hJ, hrot rfl ⟨Matrix.diagonal ![2, 2, 1], ?_, ?_, Matrix.diagonal_transpose _,
    fun x => ?_⟩⟩
  · show Matrix.diagonal ![2, 2, 1] = 1 * Matrix.diagonal ![2, 2, 1]
    rw [Matrix.one_mul]
  · show (1 : MatrixType 3).transpose * 1 = 1
    simp
  · by_cases hx : x = 0
    · simp [hx]
    · exact le_of_lt (hpd x hx)

/-- C15, evaluated where it fails. The input is a single slice whose region
starts at `(0,0,5)`, with size `1 x 1 x 1`, the transform is the identity as a
matrix transform and the output grid is the input grid. The voxel `(0,0,5)` is
mapped onto the continuous index `(0,0,5)`, inside the buffer along every
axis. The index passed to the bounds test has last component `0`, which is
outside the buffer along the last axis; the test fails and the voxel receives
the zero model `[0]` instead of the input value `[1]`. -/
theorem degenerate_input_axis_shifted_slice :
    (exampleFilter (identityTransform 3 true) true false shiftedSliceRegion
        shiftedSliceRegion).input.largestPossibleRegion.size (lastAxis (by decide)) = 1 ∧
    (∀ i, insideAlongAxis (unitImage shiftedSliceRegion fun _ => [1])
      (mappedIndex (exampleFilter (identityTransform 3 true) true false shiftedSliceRegion
        shiftedSliceRegion) (identityTransform 3 true) ![0, 0, 5]) i) ∧
    linearMappedIndex (exampleFilter (identityTransform 3 true) true false shiftedSliceRegion
        shiftedSliceRegion) (identityTransform 3 true) (by decide) ![0, 0, 5]
        (lastAxis (by decide)) = 0 ∧
    ¬ insideAlongAxis (unitImage shiftedSliceRegion fun _ => [1])
      (linearMappedIndex (exampleFilter (identityTransform 3 true) true false
        shiftedSliceRegion shiftedSliceRegion) (identityTransform 3 true) (by decide)
        ![0, 0, 5]) (lastAxis (by decide)) ∧
    (boxInterpolator : InterpolatorType 3).IsInsideBuffer
      (unitImage shiftedSliceRegion fun _ => [1])
      (linearMappedIndex (exampleFilter (identityTransform 3 true) true false
        shiftedSliceRegion shiftedSliceRegion) (identityTransform 3 true) (by decide)
        ![0, 0, 5]) = false ∧
    ∃ g, LinearThreadedGenerateData (exampleExternals 3)
        (exampleFilter (identityTransform 3 true) true false shiftedSliceRegion
          shiftedSliceRegion) shiftedSliceRegion 0 = some g ∧
      g.output.buffer ![0, 0, 5] = [0] ∧
      (unitImage shiftedSliceRegion fun _ => [1]).buffer ![0, 0, 5] = [1] := by
  have hins : shiftedSliceRegion.IsInside ![0, 0, 5] := by
    intro i
    simp [shiftedSliceRegion]
  have hsize : (exampleFilter (identityTransform 3 true) true false shiftedSliceRegion
      shiftedSliceRegion).input.largestPossibleRegion.size (lastAxis (by decide)) ≤ 1 := by
    simp [exampleFilter, unitImage, shiftedSliceRegion]
  obtain ⟨hlast, _⟩ := linearMappedIndex_of_useless
    (exampleFilter (identityTransform 3 true) true false shiftedSliceRegion shiftedSliceRegion)
    (identityTransform 3 true) (by decide) ![0, 0, 5] hsize
  have h5 : ((unitImage shiftedSliceRegion fun _ => [1]).bufferedRegion.index
      (lastAxis (by decide : 0 < 3)) : ℚ) = 5 := by
    have : (unitImage shiftedSliceRegion fun _ => [1]).bufferedRegion.index
        (lastAxis (by decide : 0 < 3)) = 5 := by decide
    rw [this]
    norm_num
  have hout : ¬ insideAlongAxis (unitImage shiftedSliceRegion fun _ => [1])
      (linearMappedIndex (exampleFilter (identityTransform 3 true) true false
        shiftedSliceRegion shiftedSliceRegion) (identityTransform 3 true) (by decide)
        ![0, 0, 5]) (lastAxis (by decide)) := by
    rw [insideAlongAxis, hlast, h5]
    norm_num
  have htest : (boxInterpolator : InterpolatorType 3).IsInsideBuffer
      (unitImage shiftedSliceRegion fun _ => [1])
      (linearMappedIndex (exampleFilter (identityTransform 3 true) true false
        shiftedSliceRegion shiftedSliceRegion) (identityTransform 3 true) (by decide)
        ![0, 0, 5]) = false := by
    rw [Bool.eq_false_iff]
    intro h
    exact hout ((boxInterpolator_isInside_iff _ _).1 h _)
  refine ⟨rfl, ?_, hlast, hout, htest, ?_⟩
  · rw [exampleFilter_mappedIndex]
    exact (boxInterpolator_isInside_iff _ _).1
      (boxInterpolator_inside (unitImage shiftedSliceRegion fun _ => [1]) ![0, 0, 5] hins)
  · obtain ⟨g, hg, _, hin, _⟩ := linear_spec (exampleExternals 3)
      (exampleFilter (identityTransform 3 true) true false shiftedSliceRegion
        shiftedSliceRegion) shiftedSliceRegion 0 (by decide) (identityTransform 3 true)
      _ _ 1 rfl rfl rfl rfl
    refine ⟨g, hg, ?_, rfl⟩
    have hI : ({ boxInterpolator with
        inputImage := some (unitImage shiftedSliceRegion fun _ => [1]) } :
          InterpolatorType 3).IsInsideBuffer = boxInterpolator.IsInsideBuffer := rfl
    rw [hin _ hins, interpolatedValue, hI, htest]
    simp [writtenValue, isZero, InitializeZeroPixel, GetOutputVectorLength, exampleFilter,
      unitImage]

end anima
